import Mathlib

/-!
Shallow embedding of the smartifier3 record-rewriting engine (src/main.rs).

Strings are modelled as lists of characters (`Str`): the Rust code scans
strings character by character (`chars().nth`, `Vec<char>`), so a char-list
model matches the source's own view of a string.  Machine indices of type
`i32` cast with `as usize` are modelled by `usizeI` on `Int`, which agrees
with two's-complement sign extension for every value an `i32` can take.
Fallible vector indexing (Rust panics out of bounds) is modelled with
`Option`: `none` is a panic.
-/

set_option autoImplicit false

abbrev Str := List Char

/-- Model of `i as usize` for an `i32` value `i`: non-negative values are
unchanged, negative values wrap modulo 2^64 (sign extension), so `-1`
becomes `usize::MAX`. -/
def usizeI (i : Int) : Nat :=
  if i < 0 then ((2 : Int) ^ 64 + i).toNat else i.toNat

/-- Characters of `s` strictly before its first `':'` (`&key[..colon_pos]`). -/
def beforeColon (s : Str) : Str := s.takeWhile (fun c => c ≠ ':')

/-- Characters of `s` strictly after its first `':'` (`&key[colon_pos + 1..]`). -/
def afterColon (s : Str) : Str := (s.dropWhile (fun c => c ≠ ':')).tail

/-- Characters of `s` strictly before its first `'/'`. -/
def beforeSlash (s : Str) : Str := s.takeWhile (fun c => c ≠ '/')

/-- Characters of `s` strictly after its first `'/'`. -/
def afterSlash (s : Str) : Str := (s.dropWhile (fun c => c ≠ '/')).tail

/-- `while parts.len() < ncols { parts.push(String::new()) }`. -/
def padTo (parts : List Str) (ncols : Nat) : List Str :=
  parts ++ List.replicate (ncols - parts.length) []

def kKey : Str := "_key".data
def kFrom : Str := "_from".data
def kTo : Str := "_to".data

-- ---------------------------------------------------------------------------
-- Codec: split / unquote / quote_string (main.rs lines 61-171)
-- ---------------------------------------------------------------------------

/-- Loop of `split`: walks the line keeping quote state; fields keep their
quote characters verbatim (the Rust code pushes raw substrings). -/
def splitLoop (sep quo : Char) : List Char → Bool → List Char → List Str
  | [], _, cur => [cur.reverse]
  | c :: cs, false, cur =>
    if c = quo then splitLoop sep quo cs true (c :: cur)
    else if c = sep then cur.reverse :: splitLoop sep quo cs false []
    else splitLoop sep quo cs false (c :: cur)
  | c :: cs, true, cur =>
    if c = quo then
      match cs with
      | c2 :: cs2 =>
        if c2 = quo then splitLoop sep quo cs2 true (c2 :: c :: cur)
        else splitLoop sep quo (c2 :: cs2) false (c :: cur)
      | [] => splitLoop sep quo [] false (c :: cur)
    else splitLoop sep quo cs true (c :: cur)

/-- `split(line, sep, quo)` from main.rs lines 61-107. -/
def split (line : Str) (sep quo : Char) : List Str :=
  splitLoop sep quo line false []

/-- Loop of `unquote` starting inside the first quoted span
(main.rs lines 131-150). -/
def unquoteLoop (quo : Char) : List Char → Bool → List Char
  | [], _ => []
  | c :: cs, true =>
    if c = quo then
      match cs with
      | c2 :: cs2 =>
        if c2 = quo then quo :: unquoteLoop quo cs2 true
        else unquoteLoop quo (c2 :: cs2) false
      | [] => []
    else c :: unquoteLoop quo cs true
  | c :: cs, false =>
    if c = quo then unquoteLoop quo cs true else unquoteLoop quo cs false

/-- `unquote(s, quo)` from main.rs lines 110-152: if `s` has no quote
character it is returned unchanged, otherwise content is collected from the
quoted spans, a doubled quote producing one literal quote. -/
def unquote (s : Str) (quo : Char) : Str :=
  if quo ∈ s then unquoteLoop quo ((s.dropWhile (fun c => c ≠ quo)).tail) true
  else s

/-- Body of `quote_string`: every occurrence of the quote character is
doubled. -/
def quoteBody (quo : Char) : Str → Str
  | [] => []
  | c :: cs => if c = quo then quo :: quo :: quoteBody quo cs else c :: quoteBody quo cs

/-- `quote_string(s, quo)` from main.rs lines 155-171: unchanged unless `s`
contains the quote character, in which case the whole value is wrapped and
internal quotes are doubled. -/
def quote_string (s : Str) (quo : Char) : Str :=
  if quo ∈ s then quo :: (quoteBody quo s ++ [quo]) else s

/-- Serialization of a row: fields joined by the separator, no trailing
separator (the `write!` loop of the transforms). -/
def joinSep (sep : Char) : List Str → Str
  | [] => []
  | [f] => f
  | f :: rest => f ++ sep :: joinSep sep rest

/-- `find_col_pos` from main.rs lines 174-179: position of a column header,
`-1` if absent. -/
def find_col_pos (col_headers : List Str) (header : Str) : Int :=
  match col_headers.findIdx? (fun h => h = header) with
  | some i => (i : Int)
  | none => -1

-- ---------------------------------------------------------------------------
-- Translation table (main.rs lines 31-37)
-- ---------------------------------------------------------------------------

/-- The `Translation` struct: `key_tab` maps a full vertex identifier to an
index into `smart_attributes`. -/
structure Translation where
  key_tab : List (Str × Nat)
  smart_attributes : List Str

/-- `HashMap::get` on the modelled `key_tab`. -/
def lookupTab (tab : List (Str × Nat)) (k : Str) : Option Nat :=
  match tab with
  | [] => none
  | (k2, v) :: rest => if k2 = k then some v else lookupTab rest k

-- ---------------------------------------------------------------------------
-- CSV vertex transform (main.rs lines 185-256)
-- ---------------------------------------------------------------------------

/-- `if pos as usize >= parts.len() { parts.push(String::new()) }`. -/
def extendFor (parts : List Str) (i : Int) : List Str :=
  if usizeI i ≥ parts.length then parts ++ [[]] else parts

/-- Attribute step of `transform_vertex_csv` (main.rs lines 211-221): with a
usable smart-value column its value is unquoted, truncated to `smart_index`
characters when that limit is positive and exceeded, and stored (re-quoted)
into the attribute column; otherwise the attribute column's current value is
unquoted.  Returns the updated row and the attribute value, `none` on an
out-of-bounds index (Rust panic). -/
def csvAttStep (quo : Char) (sap svp N : Int) (parts : List Str) :
    Option (List Str × Str) :=
  if svp ≥ 0 ∧ usizeI svp < parts.length then
    let val0 := unquote (parts.getD (usizeI svp) []) quo
    let val := if N > 0 ∧ (val0.length : Int) > N then val0.take (usizeI N) else val0
    if usizeI sap < parts.length then
      some (parts.set (usizeI sap) (quote_string val quo), val)
    else none
  else
    if usizeI sap < parts.length then some (parts, unquote (parts.getD (usizeI sap) []) quo)
    else none

/-- Key step of `transform_vertex_csv` (main.rs lines 224-246): the key
string comes from the key-value column when usable, else from the key
column; a key without a colon becomes `att:key`; a key with a colon whose
text before the colon differs from the attribute is rewritten to
`att:suffix` with a diagnostic (the returned `Bool`).  `none` is an
out-of-bounds index (Rust panic). -/
def csvKeySource (quo : Char) (kp kvp : Int) (parts : List Str) : Option Str :=
  if kvp ≥ 0 ∧ usizeI kvp < parts.length then
    some (unquote (parts.getD (usizeI kvp) []) quo)
  else if usizeI kp < parts.length then
    some (unquote (parts.getD (usizeI kp) []) quo)
  else none

/-- Rewriting of the key column from the source key string `csvKeySource`
computed, as described there. -/
def csvKeyStep (quo : Char) (kp kvp : Int) (att : Str) (parts : List Str) :
    Option (List Str × Bool) :=
  match csvKeySource quo kp kvp parts with
  | none => none
  | some key =>
    if ':' ∈ key then
      if beforeColon key ≠ att then
        if usizeI kp < parts.length then
          some (parts.set (usizeI kp) (quote_string (att ++ ':' :: afterColon key) quo), true)
        else none
      else some (parts, false)
    else
      if usizeI kp < parts.length then
        some (parts.set (usizeI kp) (quote_string (att ++ ':' :: key) quo), false)
      else none

/-- `transform_vertex_csv` (main.rs lines 185-256) on an already split row:
pad to `ncols`, extend for out-of-range attribute/key positions, derive the
attribute, rewrite the key.  Returns the rewritten row and whether the
wrong-key diagnostic fired; `none` models an index panic. -/
def transform_vertex_csv (quo : Char) (ncols : Nat) (sap svp N kp kvp : Int)
    (parts0 : List Str) : Option (List Str × Bool) :=
  let p := extendFor (extendFor (padTo parts0 ncols) sap) kp
  match csvAttStep quo sap svp N p with
  | none => none
  | some (p1, att) => csvKeyStep quo kp kvp att p1

/-- `transform_vertex_csv` on a raw line: split, transform, join. -/
def transform_vertex_csv_line (sep quo : Char) (ncols : Nat)
    (sap svp N kp kvp : Int) (line : Str) : Option (Str × Bool) :=
  (transform_vertex_csv quo ncols sap svp N kp kvp (split line sep quo)).map
    (fun r => (joinSep sep r.1, r.2))

/-- Header handling of `do_vertices` for CSV (main.rs lines 691-734): find
or append the attribute column, locate the optional smart-value column, find
the `_key` column (appending it only with `--write-key`), locate the
optional key-value column.  Returns
(headers, ncols, smart_attr_pos, smart_value_pos, key_pos, key_value_pos). -/
def vertexCsvHeaderSetup (col_headers : List Str)
    (smart_attr smart_value key_value : Str) (write_key : Bool) :
    List Str × Nat × Int × Int × Int × Int :=
  let n0 := col_headers.length
  let sap0 := find_col_pos col_headers smart_attr
  let ch1 := if sap0 < 0 then col_headers ++ [smart_attr] else col_headers
  let n1 := if sap0 < 0 then n0 + 1 else n0
  let sap := if sap0 < 0 then (n0 : Int) else sap0
  let svp := if smart_value ≠ [] then find_col_pos ch1 smart_value else -1
  let kp0 := find_col_pos ch1 kKey
  let ch2 := if kp0 < 0 ∧ write_key then ch1 ++ [kKey] else ch1
  let n2 := if kp0 < 0 ∧ write_key then n1 + 1 else n1
  let kp := if kp0 < 0 ∧ write_key then (n1 : Int) else kp0
  let kvp := if key_value ≠ [] then find_col_pos ch2 key_value else -1
  (ch2, n2, sap, svp, kp, kvp)

-- ---------------------------------------------------------------------------
-- JSONL model (main.rs lines 264-406)
-- ---------------------------------------------------------------------------

/-- A JSON value.  Numbers carry their canonical serde rendering as a string
(`num.to_string()` is deterministic), which is all the transforms use. -/
inductive Json where
  | str (s : Str)
  | null
  | boolean (b : Bool)
  | num (rendered : Str)
  | arr (elems : List Json)
  | obj (fields : List (Str × Json))

/-- A parsed top-level JSON object, as an association list.  `serde_json`'s
`Map` has unique keys; lookups take the first match. -/
abbrev Obj := List (Str × Json)

/-- `Map::get`. -/
def mapGet (o : Obj) (k : Str) : Option Json :=
  match o with
  | [] => none
  | (k2, v) :: rest => if k2 = k then some v else mapGet rest k

/-- `smart_to_string` (main.rs lines 264-304): strings pass through, null
and absent fall back to the default, booleans and numbers are rendered with
a warning, arrays and objects are rejected as empty. -/
def smart_to_string (v : Option Json) (smart_default : Str) : Str :=
  match v with
  | some (.str s) => s
  | some .null => if smart_default ≠ [] then smart_default else []
  | some (.boolean b) => if b then "true".data else "false".data
  | some (.num r) => r
  | some (.arr _) => []
  | some (.obj _) => []
  | none => if smart_default ≠ [] then smart_default else []

/-- The derived (and possibly truncated) smart attribute value for one JSON
vertex record (main.rs lines 341-349). -/
def jsonlDerivedAtt (smart_attr smart_value smart_default : Str) (N : Int) (o : Obj) : Str :=
  let att_val :=
    if smart_value ≠ [] then smart_to_string (mapGet o smart_value) smart_default
    else smart_to_string (mapGet o smart_attr) smart_default
  if N > 0 ∧ (att_val.length : Int) > N then att_val.take (usizeI N) else att_val

/-- The key slice `transform_vertex_jsonl` reads (main.rs lines 352-356). -/
def jsonlKeySlice (key_value : Str) (o : Obj) : Option Json :=
  if key_value ≠ [] then mapGet o key_value else mapGet o kKey

/-- The new key string and mismatch-warning flag derived from the key slice
(main.rs lines 357-377): an already-composite key is kept (warning when its
text before the colon differs from the attribute), a plain key is prefixed
with a non-empty attribute, a missing or non-string key yields the empty
string. -/
def jsonlKW (key_value final : Str) (o : Obj) : Str × Bool :=
  match jsonlKeySlice key_value o with
  | some (.str ks) =>
    if ':' ∈ ks then (ks, decide (beforeColon ks ≠ final))
    else if final ≠ [] then (final ++ ':' :: ks, false) else (ks, false)
  | _ => ([], false)

/-- Fields other than `_key` and the attribute field are copied over
(main.rs lines 389-394). -/
def jsonlFilterPred (smart_attr : Str) (kv : Str × Json) : Bool :=
  decide (kv.1 ≠ kKey ∧ kv.1 ≠ smart_attr)

/-- `transform_vertex_jsonl` (main.rs lines 308-406) on a parsed object:
derive the attribute (from the smart-value field if configured, else the
attribute field), truncate it, build the new key (leaving an
already-composite key unchanged, warning on a prefix mismatch — the
returned `Bool`), and emit `_key` first (when forced or non-empty), the
attribute second, then the remaining fields. -/
def transform_vertex_jsonl (smart_attr smart_value smart_default key_value : Str)
    (N : Int) (write_key : Bool) (o : Obj) : Obj × Bool :=
  let final := jsonlDerivedAtt smart_attr smart_value smart_default N o
  let kw := jsonlKW key_value final o
  let base : Obj := if write_key ∨ kw.1 ≠ [] then [(kKey, .str kw.1)] else []
  (base ++ [(smart_attr, .str final)] ++ o.filter (jsonlFilterPred smart_attr), kw.2)

-- ---------------------------------------------------------------------------
-- Edge resolver, CSV (main.rs lines 940-1018)
-- ---------------------------------------------------------------------------

/-- The `fix_vertex` closure of `transform_edges_csv` (main.rs lines
940-1005) applied to one endpoint field: returns the new field content and
the derived attribute (`""` when none was derived). -/
def fix_vertex (quo : Char) (N : Int) (tr : Translation) (default_coll : Str)
    (field : Str) : Str × Str :=
  let u := unquote field quo
  if '/' ∈ u then
    if ':' ∈ u then
      (quote_string u quo,
        if ':' ∈ afterSlash u then beforeColon (afterSlash u) else [])
    else
      if N > 0 ∧ ((afterSlash u).length : Int) > N then
        let att := (afterSlash u).take (usizeI N)
        (quote_string (beforeSlash u ++ '/' :: (att ++ ':' :: afterSlash u)) quo, att)
      else
        match lookupTab tr.key_tab u with
        | some idx =>
          let att := tr.smart_attributes.getD idx []
          (quote_string (beforeSlash u ++ '/' :: (att ++ ':' :: afterSlash u)) quo, att)
        | none => (quote_string u quo, [])
  else
    if N > 0 ∧ (u.length : Int) > N then
      let att := u.take (usizeI N)
      (quote_string (default_coll ++ '/' :: (att ++ ':' :: u)) quo, att)
    else
      match lookupTab tr.key_tab (default_coll ++ '/' :: u) with
      | some idx =>
        let att := tr.smart_attributes.getD idx []
        (quote_string (default_coll ++ '/' :: (att ++ ':' :: u)) quo, att)
      | none => (quote_string (default_coll ++ '/' :: u) quo, [])

/-- One data row of `transform_edges_csv` (main.rs lines 926-1038): pad to
the header width, fix `_from` then `_to`, and when a `_key` column exists
and both endpoints produced a non-empty attribute, rewrite a non-composite
key to `fromAttr:key:toAttr`.  `none` models an index panic. -/
def transform_edges_csv_row (quo : Char) (N : Int) (tr : Translation)
    (from_coll to_coll : Str) (fp tp : Nat) (kp : Int) (nheaders : Nat)
    (parts0 : List Str) : Option (List Str) :=
  let parts := padTo parts0 nheaders
  if fp < parts.length then
    let r1 := fix_vertex quo N tr from_coll (parts.getD fp [])
    let parts1 := parts.set fp r1.1
    if tp < parts1.length then
      let r2 := fix_vertex quo N tr to_coll (parts1.getD tp [])
      let parts2 := parts1.set tp r2.1
      if kp ≥ 0 ∧ r1.2 ≠ [] ∧ r2.2 ≠ [] then
        if usizeI kp < parts2.length then
          let uk := unquote (parts2.getD (usizeI kp) []) quo
          if ':' ∈ uk then some parts2
          else some (parts2.set (usizeI kp)
            (quote_string (r1.2 ++ ':' :: (uk ++ ':' :: r2.2)) quo))
        else none
      else some parts2
    else none
  else none

-- ---------------------------------------------------------------------------
-- Edge resolver, JSONL (main.rs lines 1122-1273)
-- ---------------------------------------------------------------------------

/-- `fix_json_vertex` (main.rs lines 1208-1273): returns (field present,
replacement value, derived attribute). -/
def fix_json_vertex (o : Obj) (field : Str) (default_coll : Str) (N : Int)
    (tr : Translation) : Bool × Option Str × Option Str :=
  match mapGet o field with
  | none => (false, none, none)
  | some (.str old) =>
    if '/' ∈ old then
      if ':' ∈ old then (true, some old, none)
      else
        if N > 0 ∧ ((afterSlash old).length : Int) > N then
          let pre := (afterSlash old).take (usizeI N)
          (true, some (beforeSlash old ++ '/' :: (pre ++ ':' :: afterSlash old)), some pre)
        else
          match lookupTab tr.key_tab old with
          | some idx =>
            let att := tr.smart_attributes.getD idx []
            (true, some (beforeSlash old ++ '/' :: (att ++ ':' :: afterSlash old)), some att)
          | none => (true, some old, none)
    else
      if N > 0 ∧ (old.length : Int) > N then
        let pre := old.take (usizeI N)
        (true, some (default_coll ++ '/' :: (pre ++ ':' :: old)), some pre)
      else
        match lookupTab tr.key_tab (default_coll ++ '/' :: old) with
        | some idx =>
          let att := tr.smart_attributes.getD idx []
          (true, some (default_coll ++ '/' :: (att ++ ':' :: old)), some att)
        | none => (true, some (default_coll ++ '/' :: old), none)
  | some _ => (true, none, none)

/-- The rewritten `_key` of `transform_edges_jsonl` (main.rs lines
1136-1151): built only when both endpoints were found with a derived
attribute and the old `_key` member is a non-composite string. -/
def edgeNewKey (rf rt : Bool × Option Str × Option Str) (old : Option Json) :
    Option Str :=
  match rf, rt with
  | (true, _, some fa), (true, _, some ta) =>
    match old with
    | some (.str k) => if ':' ∈ k then none else some (fa ++ ':' :: (k ++ ':' :: ta))
    | _ => none
  | _, _ => none

/-- The `_key` entry emitted by `transform_edges_jsonl` (main.rs lines
1152-1163): the rewritten key when one was built, otherwise the original
`_key` member when present. -/
def edgeKeyEntry (new_key : Option Str) (old : Option Json) : Obj :=
  match new_key with
  | some k => [(kKey, Json.str k)]
  | none =>
    match old with
    | some v => [(kKey, v)]
    | none => []

/-- An endpoint entry emitted by `transform_edges_jsonl` (main.rs lines
1164-1171): the fixed endpoint value when the resolver produced one,
otherwise the original member when present. -/
def edgeEndpointEntry (k : Str) (nv : Option Str) (old : Option Json) : Obj :=
  match nv with
  | some s => [(k, Json.str s)]
  | none =>
    match old with
    | some v => [(k, v)]
    | none => []

/-- One record of `transform_edges_jsonl` (main.rs lines 1122-1177): fix
`_from` and `_to`; when both endpoints were found and produced an attribute
and `_key` is a non-composite string, build the triple key; emit `_key`,
`_from`, `_to` first, then the remaining fields. -/
def transform_edges_jsonl_row (from_coll to_coll : Str) (N : Int)
    (tr : Translation) (o : Obj) : Obj :=
  let rf := fix_json_vertex o kFrom from_coll N tr
  let rt := fix_json_vertex o kTo to_coll N tr
  edgeKeyEntry (edgeNewKey rf rt (mapGet o kKey)) (mapGet o kKey) ++
  edgeEndpointEntry kFrom rf.2.1 (mapGet o kFrom) ++
  edgeEndpointEntry kTo rt.2.1 (mapGet o kTo) ++
  o.filter (fun kv => decide (kv.1 ≠ kKey ∧ kv.1 ≠ kFrom ∧ kv.1 ≠ kTo))

-- ---------------------------------------------------------------------------
-- Orchestration and status codes (main.rs lines 649-801, 849-923, 1275-1302)
-- ---------------------------------------------------------------------------

inductive DataType where
  | CSV
  | JSONL

/-- The translation table `do_edges` hands to every edge transform:
`Translation::default()` (main.rs line 1288) — nothing ever inserts into it. -/
def do_edges_translation : Translation := ⟨[], []⟩

/-- Endpoint resolution as performed during `do_edges` for CSV: `fix_vertex`
with the run's (empty) translation table. -/
def do_edges_fix_vertex (quo : Char) (N : Int) (coll field : Str) : Str × Str :=
  fix_vertex quo N do_edges_translation coll field

/-- Endpoint resolution as performed during `do_edges` for JSONL. -/
def do_edges_fix_json_vertex (o : Obj) (field : Str) (coll : Str) (N : Int) :
    Bool × Option Str × Option Str :=
  fix_json_vertex o field coll N do_edges_translation

/-- Outcomes of the I/O operations a vertex run performs. -/
structure VertexIO where
  openOk : Bool
  createOk : Bool
  headerLine : Option Str
  flushOk : Bool

/-- Status code of `do_vertices` (main.rs lines 649-801): 1 cannot open
input, 2 cannot create output, 3 missing/unreadable CSV header, 4 flush
failure, 0 success. -/
def do_vertices_status (dt : DataType) (io : VertexIO) : Int :=
  if io.openOk = false then 1
  else if io.createOk = false then 2
  else
    match dt with
    | .CSV =>
      match io.headerLine with
      | none => 3
      | some _ => if io.flushOk = false then 4 else 0
    | .JSONL => if io.flushOk = false then 4 else 0

/-- Outcomes of the I/O operations one edge file's transform performs. -/
structure EdgeIO where
  openOk : Bool
  createOk : Bool
  headerLine : Option Str
  flushOk : Bool

/-- Header renaming of `transform_edges_csv` (main.rs lines 897-901). -/
def applyRenames (rs : List (Nat × Str)) (ch : List Str) : List Str :=
  rs.foldl (fun acc r => if r.1 < acc.length then acc.set r.1 r.2 else acc) ch

/-- The column headers an edge CSV run works with: the split, unquoted
header line with the configured renames applied (main.rs lines 891-901). -/
def edgeHeaderCols (sep quo : Char) (renames : List (Nat × Str)) (h : Str) : List Str :=
  applyRenames renames ((split h sep quo).map (fun s => unquote s quo))

/-- The fatal `_from`/`_to`-missing condition of `transform_edges_csv`
(main.rs line 917). -/
def edgeHeaderMissingFromTo (sep quo : Char) (renames : List (Nat × Str)) (h : Str) : Prop :=
  find_col_pos (edgeHeaderCols sep quo renames h) kFrom < 0 ∨
  find_col_pos (edgeHeaderCols sep quo renames h) kTo < 0

instance (sep quo : Char) (renames : List (Nat × Str)) (h : Str) :
    Decidable (edgeHeaderMissingFromTo sep quo renames h) := by
  unfold edgeHeaderMissingFromTo
  infer_instance

/-- Status code of `transform_edges_csv` (main.rs lines 849-1058): 1 cannot
open, 2 cannot create the temp file, 3 missing header, 4 missing `_from` or
`_to` column after renaming, 5 flush failure, 0 success. -/
def transform_edges_csv_status (sep quo : Char) (renames : List (Nat × Str))
    (io : EdgeIO) : Int :=
  if io.openOk = false then 1
  else if io.createOk = false then 2
  else
    match io.headerLine with
    | none => 3
    | some h =>
      if edgeHeaderMissingFromTo sep quo renames h then 4
      else if io.flushOk = false then 5 else 0

/-- `do_edges` (main.rs lines 1275-1302) over CSV edge specifications:
process sequentially, stop at the first non-zero status and return it.
Also returns how many specifications were processed. -/
def do_edges_csv (sep quo : Char) : List (List (Nat × Str) × EdgeIO) → Int × Nat
  | [] => (0, 0)
  | s :: rest =>
    let r := transform_edges_csv_status sep quo s.1 s.2
    if r ≠ 0 then (r, 1)
    else
      let t := do_edges_csv sep quo rest
      (t.1, t.2 + 1)

/-- Decidable form of the composite-key shape `[^:]+:.+` : a non-empty
colon-free text before the first colon, a colon, a non-empty remainder. -/
def compositeOkB (s : Str) : Bool :=
  decide (beforeColon s ≠ []) && decide (':' ∈ s) && decide (afterColon s ≠ [])

-- ---------------------------------------------------------------------------
-- Shared lemmas
-- ---------------------------------------------------------------------------

theorem listGetD_set_self {α : Type} (l : List α) (i : Nat) (v d : α) (h : i < l.length) :
    (l.set i v).getD i d = v := by
  induction l generalizing i with
  | nil => simp at h
  | cons a t ih =>
    cases i with
    | zero => rfl
    | succ n =>
      have hn : n < t.length := by simpa using h
      show (t.set n v).getD n d = v
      exact ih n hn

theorem listGetD_set_ne {α : Type} (l : List α) (i j : Nat) (v d : α) (h : i ≠ j) :
    (l.set i v).getD j d = l.getD j d := by
  induction l generalizing i j with
  | nil => rfl
  | cons a t ih =>
    cases i with
    | zero =>
      cases j with
      | zero => exact absurd rfl h
      | succ m => rfl
    | succ n =>
      cases j with
      | zero => rfl
      | succ m =>
        show (t.set n v).getD m d = t.getD m d
        exact ih n m (fun hnm => h (by rw [hnm]))

theorem listSet_getD_self {α : Type} (l : List α) (i : Nat) (d : α) (h : i < l.length) :
    l.set i (l.getD i d) = l := by
  induction l generalizing i with
  | nil => simp at h
  | cons a t ih =>
    cases i with
    | zero => rfl
    | succ n =>
      have hn : n < t.length := by simpa using h
      show a :: t.set n (t.getD n d) = a :: t
      rw [ih n hn]

theorem listGetD_append_left {α : Type} (a b : List α) (i : Nat) (d : α) (h : i < a.length) :
    (a ++ b).getD i d = a.getD i d := by
  induction a generalizing i with
  | nil => simp at h
  | cons x t ih =>
    cases i with
    | zero => rfl
    | succ n =>
      have hn : n < t.length := by simpa using h
      show (t ++ b).getD n d = t.getD n d
      exact ih n hn

theorem usizeI_ofNat (n : Nat) : usizeI (n : Int) = n := by
  simp [usizeI]

theorem usizeI_nonneg (i : Int) (h : 0 ≤ i) : usizeI i = i.toNat := by
  simp [usizeI, not_lt.mpr h]

theorem padTo_of_le (l : List Str) (n : Nat) (h : n ≤ l.length) : padTo l n = l := by
  simp [padTo, Nat.sub_eq_zero_of_le h]

theorem length_padTo (l : List Str) (n : Nat) : (padTo l n).length = max l.length n := by
  simp [padTo]
  omega

theorem beforeColon_prepend (att s : Str) (h : ':' ∉ att) :
    beforeColon (att ++ ':' :: s) = att := by
  induction att with
  | nil => simp [beforeColon, List.takeWhile]
  | cons c cs ih =>
    have hc : c ≠ ':' := fun hh => h (by simp [hh])
    have hcs : ':' ∉ cs := fun hh => h (by simp [hh])
    simp only [List.cons_append, beforeColon, List.takeWhile]
    simp [hc, beforeColon] at ih ⊢
    exact ih hcs

theorem afterColon_prepend (att s : Str) (h : ':' ∉ att) :
    afterColon (att ++ ':' :: s) = s := by
  induction att with
  | nil => simp [afterColon, List.dropWhile]
  | cons c cs ih =>
    have hc : c ≠ ':' := fun hh => h (by simp [hh])
    have hcs : ':' ∉ cs := fun hh => h (by simp [hh])
    simp only [List.cons_append, afterColon, List.dropWhile]
    simp [hc, afterColon] at ih ⊢
    exact ih hcs

theorem colon_mem_prepend (att s : Str) : ':' ∈ att ++ ':' :: s := by
  simp

theorem beforeColon_append_afterColon (s : Str) (h : ':' ∈ s) :
    beforeColon s ++ ':' :: afterColon s = s := by
  induction s with
  | nil => simp at h
  | cons c cs ih =>
    by_cases hc : c = ':'
    · subst hc
      simp [beforeColon, afterColon, List.takeWhile, List.dropWhile]
    · have hcs : ':' ∈ cs := by
        rcases List.mem_cons.mp h with h1 | h1
        · exact absurd h1.symm hc
        · exact h1
      simp only [beforeColon, afterColon, List.takeWhile, List.dropWhile] at ih ⊢
      simp [hc] at ih ⊢
      exact ih hcs

theorem beforeColon_not_mem (s : Str) : ':' ∉ beforeColon s := by
  intro h
  have := List.mem_takeWhile_imp h
  simp at this

theorem beforeColon_no_colon (s : Str) (h : ':' ∉ s) : beforeColon s = s := by
  induction s with
  | nil => rfl
  | cons c cs ih =>
    have hc : c ≠ ':' := fun hh => h (by simp [hh])
    have hcs : ':' ∉ cs := fun hh => h (by simp [hh])
    simp only [beforeColon, List.takeWhile]
    simp [hc]
    simpa [beforeColon] using ih hcs

theorem beforeSlash_prepend (a s : Str) (h : '/' ∉ a) :
    beforeSlash (a ++ '/' :: s) = a := by
  induction a with
  | nil => simp [beforeSlash, List.takeWhile]
  | cons c cs ih =>
    have hc : c ≠ '/' := fun hh => h (by simp [hh])
    have hcs : '/' ∉ cs := fun hh => h (by simp [hh])
    simp only [List.cons_append, beforeSlash, List.takeWhile]
    simp [hc, beforeSlash] at ih ⊢
    exact ih hcs

theorem afterSlash_prepend (a s : Str) (h : '/' ∉ a) :
    afterSlash (a ++ '/' :: s) = s := by
  induction a with
  | nil => simp [afterSlash, List.dropWhile]
  | cons c cs ih =>
    have hc : c ≠ '/' := fun hh => h (by simp [hh])
    have hcs : '/' ∉ cs := fun hh => h (by simp [hh])
    simp only [List.cons_append, afterSlash, List.dropWhile]
    simp [hc, afterSlash] at ih ⊢
    exact ih hcs

theorem slash_mem_prepend (a s : Str) : '/' ∈ a ++ '/' :: s := by
  simp

theorem beforeSlash_append_afterSlash (s : Str) (h : '/' ∈ s) :
    beforeSlash s ++ '/' :: afterSlash s = s := by
  induction s with
  | nil => simp at h
  | cons c cs ih =>
    by_cases hc : c = '/'
    · subst hc
      simp [beforeSlash, afterSlash, List.takeWhile, List.dropWhile]
    · have hcs : '/' ∈ cs := by
        rcases List.mem_cons.mp h with h1 | h1
        · exact absurd h1.symm hc
        · exact h1
      simp only [beforeSlash, afterSlash, List.takeWhile, List.dropWhile] at ih ⊢
      simp [hc] at ih ⊢
      exact ih hcs

theorem beforeSlash_not_mem (s : Str) : '/' ∉ beforeSlash s := by
  intro h
  have := List.mem_takeWhile_imp h
  simp at this

theorem unquoteLoop_quoteBody (quo : Char) (s : Str) :
    unquoteLoop quo (quoteBody quo s ++ [quo]) true = s := by
  induction s with
  | nil => simp [quoteBody, unquoteLoop]
  | cons c cs ih =>
    by_cases hc : c = quo
    · simp [quoteBody, unquoteLoop, hc, ih]
    · simp only [quoteBody, if_neg hc, List.cons_append]
      rw [unquoteLoop.eq_def]
      simp [hc, ih]

theorem unquote_quote_string (s : Str) (quo : Char) :
    unquote (quote_string s quo) quo = s := by
  by_cases h : quo ∈ s
  · simp only [quote_string, if_pos h, unquote]
    have hmem : quo ∈ quo :: (quoteBody quo s ++ [quo]) := List.mem_cons_self _ _
    rw [if_pos hmem]
    have hdrop : (quo :: (quoteBody quo s ++ [quo])).dropWhile (fun c => c ≠ quo) =
        quo :: (quoteBody quo s ++ [quo]) := by
      rw [List.dropWhile_cons]
      simp
    rw [hdrop]
    simpa using unquoteLoop_quoteBody quo s
  · simp [quote_string, if_neg h, unquote, h]

theorem mapGet_nil (k : Str) : mapGet [] k = none := rfl

theorem mapGet_cons_eq (o : Obj) (k : Str) (v : Json) : mapGet ((k, v) :: o) k = some v := by
  simp [mapGet]

theorem mapGet_cons_ne (o : Obj) (k k2 : Str) (v : Json) (h : k2 ≠ k) :
    mapGet ((k2, v) :: o) k = mapGet o k := by
  simp [mapGet, h]

theorem mapGet_append_of_none (a b : Obj) (k : Str) (h : mapGet a k = none) :
    mapGet (a ++ b) k = mapGet b k := by
  induction a with
  | nil => rfl
  | cons kv rest ih =>
    obtain ⟨k2, v⟩ := kv
    by_cases hk : k2 = k
    · rw [hk] at h
      rw [mapGet_cons_eq] at h
      exact absurd h (by simp)
    · rw [List.cons_append, mapGet_cons_ne _ _ _ _ hk]
      rw [mapGet_cons_ne _ _ _ _ hk] at h
      exact ih h

theorem mapGet_append_of_some (a b : Obj) (k : Str) (v : Json) (h : mapGet a k = some v) :
    mapGet (a ++ b) k = some v := by
  induction a with
  | nil => simp [mapGet_nil] at h
  | cons kv rest ih =>
    obtain ⟨k2, w⟩ := kv
    by_cases hk : k2 = k
    · rw [hk] at h ⊢
      rw [mapGet_cons_eq] at h
      rw [List.cons_append, mapGet_cons_eq]
      exact h
    · rw [List.cons_append, mapGet_cons_ne _ _ _ _ hk]
      rw [mapGet_cons_ne _ _ _ _ hk] at h
      exact ih h

theorem mapGet_filter_of_true (o : Obj) (p : Str × Json → Bool) (k : Str)
    (h : ∀ v, p (k, v) = true) : mapGet (o.filter p) k = mapGet o k := by
  induction o with
  | nil => rfl
  | cons kv rest ih =>
    obtain ⟨k2, v⟩ := kv
    by_cases hk : k2 = k
    · subst hk
      rw [List.filter_cons, h v, if_pos rfl]
      rw [mapGet_cons_eq, mapGet_cons_eq]
    · rw [List.filter_cons]
      by_cases hp : p (k2, v) = true
      · simp only [hp, if_pos]
        rw [mapGet_cons_ne _ _ _ _ hk, mapGet_cons_ne _ _ _ _ hk]
        exact ih
      · rw [if_neg hp]
        rw [mapGet_cons_ne _ _ _ _ hk]
        exact ih

theorem mapGet_filter_of_false (o : Obj) (p : Str × Json → Bool) (k : Str)
    (h : ∀ v, p (k, v) = false) : mapGet (o.filter p) k = none := by
  induction o with
  | nil => rfl
  | cons kv rest ih =>
    obtain ⟨k2, v⟩ := kv
    rw [List.filter_cons]
    by_cases hp : p (k2, v) = true
    · rw [if_pos hp]
      have hk : k2 ≠ k := by
        intro hh
        subst hh
        rw [h v] at hp
        simp at hp
      rw [mapGet_cons_ne _ _ _ _ hk]
      exact ih
    · rw [if_neg hp]
      exact ih

theorem take_of_ge_int (raw : Str) (N : Int) (hN : N > 0) (hle : N ≤ (raw.length : Int))
    (hnot : ¬(raw.length : Int) > N) : raw.take (usizeI N) = raw := by
  apply List.take_of_length_le
  have h1 : (raw.length : Int) = N := by omega
  have : usizeI N = N.toNat := usizeI_nonneg N (by omega)
  omega

theorem compositeOkB_prepend (att suf : Str) (h1 : att ≠ []) (h2 : ':' ∉ att)
    (h3 : suf ≠ []) : compositeOkB (att ++ ':' :: suf) = true := by
  simp [compositeOkB, beforeColon_prepend att suf h2, afterColon_prepend att suf h2, h1, h3]

theorem mapGet_of_all_ne (x : Obj) (k : Str) (h : ∀ kv ∈ x, kv.1 ≠ k) :
    mapGet x k = none := by
  induction x with
  | nil => rfl
  | cons kv rest ih =>
    obtain ⟨k2, v⟩ := kv
    rw [mapGet_cons_ne _ _ _ _ (h (k2, v) (by simp))]
    exact ih (fun y hy => h y (by simp [hy]))

theorem mapGet_assembly (o km fm tm fl : Obj)
    (hkm : km = (match mapGet o kKey with | some w => [(kKey, w)] | none => []))
    (hfm : mapGet fm kKey = none) (htm : mapGet tm kKey = none)
    (hfl : mapGet fl kKey = none) :
    mapGet (km ++ fm ++ tm ++ fl) kKey = mapGet o kKey := by
  rcases hk : mapGet o kKey with _ | w
  · have hkm2 : km = [] := by rw [hkm, hk]
    subst hkm2
    simp only [List.nil_append]
    have h1 : mapGet (fm ++ tm) kKey = none :=
      (mapGet_append_of_none fm tm kKey hfm).trans htm
    rw [mapGet_append_of_none _ _ _ h1]
    exact hfl
  · have hkm2 : km = [(kKey, w)] := by rw [hkm, hk]
    subst hkm2
    have h1 : mapGet ([(kKey, w)] ++ fm) kKey = some w :=
      mapGet_append_of_some _ _ _ _ (mapGet_cons_eq _ _ _)
    have h2 : mapGet (([(kKey, w)] ++ fm) ++ tm) kKey = some w :=
      mapGet_append_of_some _ _ _ _ h1
    exact mapGet_append_of_some _ _ _ _ h2

theorem find_col_pos_neg_of_not_mem (l : List Str) (k : Str) (h : k ∉ l) :
    find_col_pos l k = -1 := by
  simp only [find_col_pos]
  have : l.findIdx? (fun x => x = k) = none := by
    rw [List.findIdx?_eq_none_iff]
    intro x hx
    simp only [decide_eq_false_iff_not]
    intro hxk
    exact h (hxk ▸ hx)
  rw [this]

theorem extendFor_length (parts : List Str) (i : Int) :
    (extendFor parts i).length = if usizeI i ≥ parts.length then parts.length + 1
      else parts.length := by
  simp only [extendFor]
  by_cases h : usizeI i ≥ parts.length
  · simp [h]
  · simp [h]

theorem csvAttStep_length (quo : Char) (sap svp N : Int) (parts pa : List Str) (att : Str)
    (h : csvAttStep quo sap svp N parts = some (pa, att)) : pa.length = parts.length := by
  simp only [csvAttStep] at h
  by_cases h1 : svp ≥ 0 ∧ usizeI svp < parts.length
  · rw [if_pos h1] at h
    by_cases h2 : usizeI sap < parts.length
    · rw [if_pos h2] at h
      have hinj := Option.some_inj.mp h
      injection hinj with hpa _
      rw [← hpa]
      simp
    · rw [if_neg h2] at h
      exact absurd h (by simp)
  · rw [if_neg h1] at h
    by_cases h2 : usizeI sap < parts.length
    · rw [if_pos h2] at h
      have hinj := Option.some_inj.mp h
      injection hinj with hpa _
      rw [← hpa]
    · rw [if_neg h2] at h
      exact absurd h (by simp)

theorem usizeI_neg_one : usizeI (-1) = 2 ^ 64 - 1 := by decide

theorem do_edges_first_failure (sep quo : Char) (pre : List (List (Nat × Str) × EdgeIO))
    (bad : List (Nat × Str) × EdgeIO) (post : List (List (Nat × Str) × EdgeIO))
    (hpre : ∀ s ∈ pre, transform_edges_csv_status sep quo s.1 s.2 = 0)
    (hbad : transform_edges_csv_status sep quo bad.1 bad.2 ≠ 0) :
    do_edges_csv sep quo (pre ++ bad :: post) =
      (transform_edges_csv_status sep quo bad.1 bad.2, pre.length + 1) := by
  induction pre with
  | nil =>
    simp only [List.nil_append, do_edges_csv, if_pos hbad, List.length_nil]
  | cons s rest ih =>
    have hs : transform_edges_csv_status sep quo s.1 s.2 = 0 := hpre s (by simp)
    have hrest : ∀ x ∈ rest, transform_edges_csv_status sep quo x.1 x.2 = 0 :=
      fun x hx => hpre x (by simp [hx])
    simp only [List.cons_append, do_edges_csv, hs, if_neg (by simp : ¬(0 : Int) ≠ 0),
      List.append_eq]
    rw [ih hrest]
    simp [Nat.add_comm]

-- ---------------------------------------------------------------------------
-- Claims
-- ---------------------------------------------------------------------------

/-- Claim C1: the translation table `do_edges` hands to edge resolution is
empty, its lookup never succeeds, and an endpoint that is not already
composite and not resolvable by direct truncation (smart index non-positive
or key not longer than it) is left as `collection/key` with no attribute
recorded, in both the tabular and the object edge resolver. -/
theorem c1_empty_table_endpoints_unresolved :
    do_edges_translation.key_tab = [] ∧
    (∀ k, lookupTab do_edges_translation.key_tab k = none) ∧
    (∀ quo N coll field,
      '/' ∈ unquote field quo → ':' ∉ unquote field quo →
      (N ≤ 0 ∨ ((afterSlash (unquote field quo)).length : Int) ≤ N) →
      do_edges_fix_vertex quo N coll field = (quote_string (unquote field quo) quo, [])) ∧
    (∀ quo N coll field,
      '/' ∉ unquote field quo →
      (N ≤ 0 ∨ ((unquote field quo).length : Int) ≤ N) →
      do_edges_fix_vertex quo N coll field =
        (quote_string (coll ++ '/' :: unquote field quo) quo, [])) ∧
    (∀ o fieldName coll N u,
      mapGet o fieldName = some (.str u) →
      '/' ∈ u → ':' ∉ u →
      (N ≤ 0 ∨ ((afterSlash u).length : Int) ≤ N) →
      do_edges_fix_json_vertex o fieldName coll N = (true, some u, none)) ∧
    (∀ o fieldName coll N u,
      mapGet o fieldName = some (.str u) →
      '/' ∉ u →
      (N ≤ 0 ∨ (u.length : Int) ≤ N) →
      do_edges_fix_json_vertex o fieldName coll N =
        (true, some (coll ++ '/' :: u), none)) := by
  refine ⟨rfl, fun k => rfl, ?_, ?_, ?_, ?_⟩
  · intro quo N coll field h1 h2 h3
    have hcond : ¬(N > 0 ∧ ((afterSlash (unquote field quo)).length : Int) > N) := by omega
    simp only [do_edges_fix_vertex, fix_vertex, if_pos h1, if_neg h2, if_neg hcond]
    rfl
  · intro quo N coll field h1 h3
    have hcond : ¬(N > 0 ∧ ((unquote field quo).length : Int) > N) := by omega
    simp only [do_edges_fix_vertex, fix_vertex, if_neg h1, if_neg hcond]
    rfl
  · intro o fieldName coll N u hget h1 h2 h3
    have hcond : ¬(N > 0 ∧ ((afterSlash u).length : Int) > N) := by omega
    simp only [do_edges_fix_json_vertex, fix_json_vertex, hget, if_pos h1, if_neg h2,
      if_neg hcond]
    rfl
  · intro o fieldName coll N u hget h1 h3
    have hcond : ¬(N > 0 ∧ (u.length : Int) > N) := by omega
    simp only [do_edges_fix_json_vertex, fix_json_vertex, hget, if_neg h1, if_neg hcond]
    rfl

/-- Witness for C1 at concrete endpoints. -/
theorem c1_witness :
    ('/' ∈ unquote "persons/XY".data '"' ∧ ':' ∉ unquote "persons/XY".data '"' ∧
      ((-1 : Int) ≤ 0 ∨ ((afterSlash (unquote "persons/XY".data '"')).length : Int) ≤ -1) ∧
      do_edges_fix_vertex '"' (-1) "persons".data "persons/XY".data =
        (quote_string (unquote "persons/XY".data '"') '"', [])) ∧
    ('/' ∉ unquote "XY".data '"' ∧
      do_edges_fix_vertex '"' (-1) "persons".data "XY".data =
        (quote_string ("persons".data ++ '/' :: unquote "XY".data '"') '"', [])) :=
  ⟨⟨by decide, by decide, Or.inl (by decide),
    c1_empty_table_endpoints_unresolved.2.2.1 '"' (-1) "persons".data "persons/XY".data
      (by decide) (by decide) (Or.inl (by decide))⟩,
   ⟨by decide,
    c1_empty_table_endpoints_unresolved.2.2.2.1 '"' (-1) "persons".data "XY".data
      (by decide) (Or.inl (by decide))⟩⟩

/-- Counterexample to claim C2: with no value-source column and an empty
attribute column (spec Scenario A), the tabular vertex transform emits the
key `:alice1`, whose text before the colon is empty, so the claimed
composite-key shape fails. -/
theorem c2_counterexample :
    transform_vertex_csv '"' 3 2 (-1) (-1) 1 (-1) ["Alice".data, "alice1".data] =
      some (["Alice".data, ":alice1".data, []], false) ∧
    compositeOkB (unquote ":alice1".data '"') = false := by
  decide

/-- Claim C2 (amended): the attribute the CSV attribute step returns is what
is stored (unquoted) in the attribute column; and whenever the derived
attribute is non-empty and colon-free, the source key is non-empty (resp.
has a non-empty suffix when already composite) and — in the tabular case —
the key is not taken from a key-value column while already composite, the
emitted key field is `att:suffix`, matches `[^:]+:.+`, and its text before
the colon equals the stored attribute; likewise in the object encoding,
where an already-composite key must additionally carry the correct text
before its colon, since the object path never rewrites such a key. -/
theorem c2_composite_key_invariant_amended :
    (∀ (quo : Char) (sap svp N : Int) (parts pa : List Str) (att : Str),
      csvAttStep quo sap svp N parts = some (pa, att) →
      unquote (pa.getD (usizeI sap) []) quo = att) ∧
    (∀ (quo : Char) (kp kvp : Int) (att key : Str) (parts p1 : List Str) (b : Bool),
      csvKeySource quo kp kvp parts = some key →
      csvKeyStep quo kp kvp att parts = some (p1, b) →
      att ≠ [] → ':' ∉ att →
      (kvp < 0 ∨ ':' ∉ key) →
      (':' ∈ key → afterColon key ≠ []) →
      (':' ∉ key → key ≠ []) →
      unquote (p1.getD (usizeI kp) []) quo =
        att ++ ':' :: (if ':' ∈ key then afterColon key else key) ∧
      compositeOkB (unquote (p1.getD (usizeI kp) []) quo) = true ∧
      beforeColon (unquote (p1.getD (usizeI kp) []) quo) = att) ∧
    (∀ (smart_attr smart_value smart_default key_value : Str) (N : Int) (write_key : Bool)
      (o : Obj) (final ks : Str),
      final = jsonlDerivedAtt smart_attr smart_value smart_default N o →
      jsonlKeySlice key_value o = some (.str ks) →
      smart_attr ≠ kKey →
      final ≠ [] → ':' ∉ final →
      (':' ∈ ks → beforeColon ks = final ∧ afterColon ks ≠ []) →
      (':' ∉ ks → ks ≠ []) →
      ∃ k, mapGet ((transform_vertex_jsonl smart_attr smart_value smart_default key_value N
          write_key o).1) kKey = some (.str k) ∧
        k = final ++ ':' :: (if ':' ∈ ks then afterColon ks else ks) ∧
        compositeOkB k = true ∧
        beforeColon k = final ∧
        mapGet ((transform_vertex_jsonl smart_attr smart_value smart_default key_value N
          write_key o).1) smart_attr = some (.str final)) := by
  refine ⟨?_, ?_, ?_⟩
  · intro quo sap svp N parts pa att hstep
    simp only [csvAttStep] at hstep
    by_cases h1 : svp ≥ 0 ∧ usizeI svp < parts.length
    · rw [if_pos h1] at hstep
      by_cases h2 : usizeI sap < parts.length
      · rw [if_pos h2] at hstep
        have hinj := Option.some_inj.mp hstep
        injection hinj with hpa hatt
        subst hpa
        rw [listGetD_set_self _ _ _ _ h2]
        rw [← hatt]
        exact unquote_quote_string _ quo
      · rw [if_neg h2] at hstep
        exact absurd hstep (by simp)
    · rw [if_neg h1] at hstep
      by_cases h2 : usizeI sap < parts.length
      · rw [if_pos h2] at hstep
        have hinj := Option.some_inj.mp hstep
        injection hinj with hpa hatt
        subst hpa
        exact hatt
      · rw [if_neg h2] at hstep
        exact absurd hstep (by simp)
  · intro quo kp kvp att key parts p1 b hsrc hstep hatt hattc hdisj hsuf hkey
    simp only [csvKeyStep, hsrc] at hstep
    by_cases hc : ':' ∈ key
    · rw [if_pos hc] at hstep
      by_cases hmis : beforeColon key ≠ att
      · rw [if_pos hmis] at hstep
        by_cases hb : usizeI kp < parts.length
        · rw [if_pos hb] at hstep
          have hinj := Option.some_inj.mp hstep
          injection hinj with hp1 hb2
          subst hp1
          rw [listGetD_set_self _ _ _ _ hb, unquote_quote_string]
          rw [if_pos hc]
          exact ⟨rfl, compositeOkB_prepend _ _ hatt hattc (hsuf hc),
            beforeColon_prepend _ _ hattc⟩
        · rw [if_neg hb] at hstep
          exact absurd hstep (by simp)
      · rw [if_neg hmis] at hstep
        push_neg at hmis
        have hinj := Option.some_inj.mp hstep
        injection hinj with hp1 hb2
        subst hp1
        have hkvp : kvp < 0 := by
          rcases hdisj with h | h
          · exact h
          · exact absurd hc h
        have hsrckp : key = unquote (parts.getD (usizeI kp) []) quo := by
          simp only [csvKeySource] at hsrc
          rw [if_neg (by omega)] at hsrc
          by_cases hb : usizeI kp < parts.length
          · rw [if_pos hb] at hsrc
            exact (Option.some_inj.mp hsrc).symm
          · rw [if_neg hb] at hsrc
            exact absurd hsrc (by simp)
        rw [← hsrckp]
        have hdecomp : beforeColon key ++ ':' :: afterColon key = key :=
          beforeColon_append_afterColon key hc
        rw [hmis] at hdecomp
        refine ⟨?_, ?_, ?_⟩
        · rw [if_pos hc, hdecomp]
        · rw [← hdecomp]
          exact compositeOkB_prepend _ _ hatt hattc (hsuf hc)
        · rw [← hdecomp]
          exact beforeColon_prepend _ _ hattc
    · rw [if_neg hc] at hstep
      by_cases hb : usizeI kp < parts.length
      · rw [if_pos hb] at hstep
        have hinj := Option.some_inj.mp hstep
        injection hinj with hp1 hb2
        subst hp1
        rw [listGetD_set_self _ _ _ _ hb, unquote_quote_string]
        rw [if_neg hc]
        exact ⟨rfl, compositeOkB_prepend _ _ hatt hattc (hkey hc),
          beforeColon_prepend _ _ hattc⟩
      · rw [if_neg hb] at hstep
        exact absurd hstep (by simp)
  · intro smart_attr smart_value smart_default key_value N write_key o final ks
      hfinal hks hsa hfne hfc hcol hnocol
    simp only [transform_vertex_jsonl, jsonlKW, ← hfinal, hks]
    by_cases hc : ':' ∈ ks
    · obtain ⟨hpre, hsufne⟩ := hcol hc
      have hkseq : ks = final ++ ':' :: afterColon ks := by
        conv_lhs => rw [← beforeColon_append_afterColon ks hc]
        rw [hpre]
      refine ⟨ks, ?_, ?_, ?_, ?_, ?_⟩
      · rw [if_pos hc]
        have hbase : (if write_key = true ∨ ks ≠ [] then [(kKey, Json.str ks)] else []) =
            [(kKey, Json.str ks)] := by
          rw [if_pos (Or.inr (by intro hh; rw [hh] at hc; simp at hc))]
        simp only [hbase]
        rw [List.append_assoc, List.cons_append, mapGet_cons_eq]
      · rw [if_pos hc]
        exact hkseq
      · rw [hkseq]
        exact compositeOkB_prepend _ _ hfne hfc hsufne
      · rw [hkseq]
        exact beforeColon_prepend _ _ hfc
      · rw [if_pos hc]
        have hbase : (if write_key = true ∨ ks ≠ [] then [(kKey, Json.str ks)] else []) =
            [(kKey, Json.str ks)] := by
          rw [if_pos (Or.inr (by intro hh; rw [hh] at hc; simp at hc))]
        simp only [hbase]
        rw [List.append_assoc]
        rw [mapGet_append_of_none _ _ _ (by
          rw [mapGet_cons_ne _ _ _ _ (fun hh => hsa hh.symm)]; rfl)]
        rw [List.cons_append, mapGet_cons_eq]
    · have hkne : ks ≠ [] := hnocol hc
      refine ⟨final ++ ':' :: ks, ?_, ?_, ?_, ?_, ?_⟩
      · rw [if_neg hc, if_pos hfne]
        have hbase : (if write_key = true ∨ (final ++ ':' :: ks) ≠ [] then
            [(kKey, Json.str (final ++ ':' :: ks))] else []) =
            [(kKey, Json.str (final ++ ':' :: ks))] := by
          rw [if_pos (Or.inr (by simp))]
        simp only [hbase]
        rw [List.append_assoc, List.cons_append, mapGet_cons_eq]
      · rw [if_neg hc]
      · exact compositeOkB_prepend _ _ hfne hfc hkne
      · exact beforeColon_prepend _ _ hfc
      · rw [if_neg hc, if_pos hfne]
        have hbase : (if write_key = true ∨ (final ++ ':' :: ks) ≠ [] then
            [(kKey, Json.str (final ++ ':' :: ks))] else []) =
            [(kKey, Json.str (final ++ ':' :: ks))] := by
          rw [if_pos (Or.inr (by simp))]
        simp only [hbase]
        rw [List.append_assoc]
        rw [mapGet_append_of_none _ _ _ (by
          rw [mapGet_cons_ne _ _ _ _ (fun hh => hsa hh.symm)]; rfl)]
        rw [List.cons_append, mapGet_cons_eq]

/-- Witness for amended C2 at a concrete record. -/
theorem c2_witness :
    ("DE".data ≠ ([] : Str) ∧ ':' ∉ "DE".data) ∧
    unquote ((["x".data, "DE:bob1".data] : List Str).getD (usizeI 1) []) '"' =
      "DE".data ++ ':' :: "bob1".data ∧
    compositeOkB (unquote ((["x".data, "DE:bob1".data] : List Str).getD (usizeI 1) []) '"') =
      true ∧
    beforeColon (unquote ((["x".data, "DE:bob1".data] : List Str).getD (usizeI 1) []) '"') =
      "DE".data := by
  refine ⟨⟨by decide, by decide⟩, ?_⟩
  have h := c2_composite_key_invariant_amended.2.1 '"' 1 (-1) "DE".data "bob1".data
    ["x".data, "bob1".data] ["x".data, "DE:bob1".data] false (by decide) (by decide)
    (by decide) (by decide) (Or.inl (by decide)) (by decide) (by decide)
  exact ⟨h.1, h.2.1, h.2.2⟩

theorem edgeNewKey_attr_none_left (ff : Bool) (fv : Option Str)
    (rt : Bool × Option Str × Option Str) (old : Option Json) :
    edgeNewKey (ff, fv, none) rt old = none := by
  rcases rt with ⟨tf, tv, ta⟩
  rcases ff <;> rcases tf <;> rcases ta with _ | a <;> rfl

theorem mapGet_edgeKeyEntry_ne (nk : Option Str) (old : Option Json) (k : Str)
    (h : kKey ≠ k) : mapGet (edgeKeyEntry nk old) k = none := by
  rcases nk with _ | s
  · rcases old with _ | v
    · rfl
    · show mapGet [(kKey, v)] k = none
      rw [mapGet_cons_ne _ _ _ _ h]
      rfl
  · show mapGet [(kKey, Json.str s)] k = none
    rw [mapGet_cons_ne _ _ _ _ h]
    rfl

theorem mapGet_edgeEndpointEntry_ne (k2 : Str) (nv : Option Str) (old : Option Json)
    (k : Str) (h : k2 ≠ k) : mapGet (edgeEndpointEntry k2 nv old) k = none := by
  rcases nv with _ | s
  · rcases old with _ | v
    · rfl
    · show mapGet [(k2, v)] k = none
      rw [mapGet_cons_ne _ _ _ _ h]
      rfl
  · show mapGet [(k2, Json.str s)] k = none
    rw [mapGet_cons_ne _ _ _ _ h]
    rfl

theorem mapGet_edgeEndpointEntry_some (k2 s : Str) (old : Option Json) :
    mapGet (edgeEndpointEntry k2 (some s) old) k2 = some (Json.str s) :=
  mapGet_cons_eq _ _ _

theorem mapGet_edgeEndpointEntry_none (k2 : Str) (old : Option Json) :
    mapGet (edgeEndpointEntry k2 none old) k2 = old := by
  rcases old with _ | v
  · rfl
  · exact mapGet_cons_eq _ _ _

theorem filter_single_of_false {α : Type} (p : α → Bool) (x : α) (h : p x = false) :
    List.filter p [x] = [] := by
  simp [List.filter_cons, h]

theorem filter_edgeKeyEntry_nil (nk : Option Str) (old : Option Json)
    (p : Str × Json → Bool) (h : ∀ v, p (kKey, v) = false) :
    (edgeKeyEntry nk old).filter p = [] := by
  rcases nk with _ | s
  · rcases old with _ | v
    · rfl
    · exact filter_single_of_false p (kKey, v) (h v)
  · exact filter_single_of_false p (kKey, Json.str s) (h (Json.str s))

theorem filter_edgeEndpointEntry_nil (k2 : Str) (nv : Option Str) (old : Option Json)
    (p : Str × Json → Bool) (h : ∀ v, p (k2, v) = false) :
    (edgeEndpointEntry k2 nv old).filter p = [] := by
  rcases nv with _ | s
  · rcases old with _ | v
    · rfl
    · exact filter_single_of_false p (k2, v) (h v)
  · exact filter_single_of_false p (k2, Json.str s) (h (Json.str s))


/-- Counterexample to claim C3: both endpoints of the edge row are already
composite, yet the tabular resolver records their existing prefixes as
attributes and rewrites the edge key `e1` to `DE:e1:FR` — the key is not
left untouched. -/
theorem c3_counterexample :
    transform_edges_csv_row '"' 2 do_edges_translation "persons".data "persons".data 0 1 2 3
      ["persons/DE:DE12345".data, "persons/FR:FR9876".data, "e1".data] =
      some ["persons/DE:DE12345".data, "persons/FR:FR9876".data, "DE:e1:FR".data] ∧
    "DE:e1:FR".data ≠ "e1".data := by
  decide

/-- Claim C3 (amended): an already-composite endpoint value is left
untouched in both encodings, but the tabular resolver returns its existing
inner prefix (the text between the first slash and the following colon,
empty when no colon follows the slash) as the derived attribute, so the edge
key can still be rewritten; the object resolver records no attribute for an
already-composite endpoint, and there the edge key is indeed preserved. -/
theorem c3_already_composite_amended :
    (∀ (quo : Char) (N : Int) (tr : Translation) (coll field : Str),
      '/' ∈ unquote field quo → ':' ∈ unquote field quo →
      fix_vertex quo N tr coll field =
        (quote_string (unquote field quo) quo,
          if ':' ∈ afterSlash (unquote field quo) then
            beforeColon (afterSlash (unquote field quo))
          else [])) ∧
    (∀ (o : Obj) (field coll : Str) (N : Int) (tr : Translation) (v : Str),
      mapGet o field = some (.str v) → '/' ∈ v → ':' ∈ v →
      fix_json_vertex o field coll N tr = (true, some v, none)) ∧
    (∀ (from_coll to_coll : Str) (N : Int) (tr : Translation) (o : Obj) (v : Str),
      mapGet o kFrom = some (.str v) → '/' ∈ v → ':' ∈ v →
      mapGet (transform_edges_jsonl_row from_coll to_coll N tr o) kKey =
        mapGet o kKey) := by
  refine ⟨?_, ?_, ?_⟩
  · intro quo N tr coll field h1 h2
    simp only [fix_vertex, if_pos h1, if_pos h2]
  · intro o field coll N tr v hget h1 h2
    simp only [fix_json_vertex, hget, if_pos h1, if_pos h2]
  · intro from_coll to_coll N tr o v hget h1 h2
    have hrf : fix_json_vertex o kFrom from_coll N tr = (true, some v, none) := by
      simp only [fix_json_vertex, hget, if_pos h1, if_pos h2]
    simp only [transform_edges_jsonl_row, hrf]
    rw [edgeNewKey_attr_none_left]
    have hfl : mapGet (o.filter
        (fun kv => decide (kv.1 ≠ kKey ∧ kv.1 ≠ kFrom ∧ kv.1 ≠ kTo))) kKey = none :=
      mapGet_filter_of_false _ _ _ (fun w => by simp)
    have hfm : mapGet (edgeEndpointEntry kFrom (some v) (mapGet o kFrom)) kKey = none :=
      mapGet_edgeEndpointEntry_ne _ _ _ _ (by decide)
    have htm : mapGet (edgeEndpointEntry kTo
        (fix_json_vertex o kTo to_coll N tr).2.1 (mapGet o kTo)) kKey = none :=
      mapGet_edgeEndpointEntry_ne _ _ _ _ (by decide)
    simp only [List.append_assoc]
    rcases hk : mapGet o kKey with _ | w
    · rw [show edgeKeyEntry none none = ([] : Obj) from rfl, List.nil_append,
        mapGet_append_of_none _ _ _ hfm, mapGet_append_of_none _ _ _ htm]
      exact hfl
    · exact mapGet_append_of_some _ _ _ _ (mapGet_cons_eq _ _ _)

/-- Witness for amended C3 at a concrete composite endpoint. -/
theorem c3_witness :
    ('/' ∈ unquote "persons/DE:DE12345".data '"' ∧
      ':' ∈ unquote "persons/DE:DE12345".data '"') ∧
    fix_vertex '"' (-1) do_edges_translation "persons".data "persons/DE:DE12345".data =
      ("persons/DE:DE12345".data, "DE".data) ∧
    fix_json_vertex [(kFrom, Json.str "persons/DE:DE12345".data)] kFrom "persons".data
      (-1) do_edges_translation = (true, some "persons/DE:DE12345".data, none) := by
  refine ⟨⟨by decide, by decide⟩, ?_, ?_⟩
  · have h := c3_already_composite_amended.1 '"' (-1) do_edges_translation "persons".data
      "persons/DE:DE12345".data (by decide) (by decide)
    rw [h]
    decide
  · exact c3_already_composite_amended.2.1 [(kFrom, Json.str "persons/DE:DE12345".data)]
      kFrom "persons".data (-1) do_edges_translation "persons/DE:DE12345".data
      (by rw [mapGet_cons_eq]) (by decide) (by decide)

/-- Counterexample to claim C4: in the tabular encoding with no value-source
column configured, the attribute column `ABCD` is not truncated although the
truncation length is 2: the stored attribute and the key prefix stay `ABCD`. -/
theorem c4_counterexample :
    ((2 : Int) > 0 ∧ ((("ABCD".data : Str)).length : Int) ≥ 2) ∧
    transform_vertex_csv '"' 2 0 (-1) 2 1 (-1) ["ABCD".data, "k".data] =
      some (["ABCD".data, "ABCD:k".data], false) ∧
    ("ABCD".data : Str) ≠ ("ABCD".data : Str).take 2 := by
  decide

/-- Claim C4 (amended): the truncation law holds in the tabular encoding
whenever a value-source column is configured and usable — the stored
(re-quoted) attribute column value and the returned attribute both equal the
first N characters of the raw value — and in the object encoding with or
without a value source; the tabular path without a value source performs no
truncation at all (see the counterexample). -/
theorem c4_truncation_law_amended :
    (∀ (quo : Char) (sap svp N : Int) (parts : List Str) (raw : Str),
      raw = unquote (parts.getD (usizeI svp) []) quo →
      svp ≥ 0 → usizeI svp < parts.length → usizeI sap < parts.length →
      N > 0 → N ≤ (raw.length : Int) →
      csvAttStep quo sap svp N parts =
        some (parts.set (usizeI sap) (quote_string (raw.take (usizeI N)) quo),
          raw.take (usizeI N))) ∧
    (∀ (smart_attr smart_value smart_default key_value : Str) (N : Int) (write_key : Bool)
      (o : Obj) (raw : Str),
      raw = (if smart_value ≠ [] then smart_to_string (mapGet o smart_value) smart_default
             else smart_to_string (mapGet o smart_attr) smart_default) →
      smart_attr ≠ kKey →
      N > 0 → N ≤ (raw.length : Int) →
      jsonlDerivedAtt smart_attr smart_value smart_default N o = raw.take (usizeI N) ∧
      mapGet ((transform_vertex_jsonl smart_attr smart_value smart_default key_value N
        write_key o).1) smart_attr = some (.str (raw.take (usizeI N)))) := by
  constructor
  · intro quo sap svp N parts raw hraw hsvp hsvplt hsaplt hN hle
    simp only [csvAttStep, if_pos (And.intro hsvp hsvplt), ← hraw, if_pos hsaplt]
    by_cases hgt : (raw.length : Int) > N
    · simp [hgt, hN]
    · rw [if_neg (by tauto)]
      rw [take_of_ge_int raw N hN hle hgt]
  · intro smart_attr smart_value smart_default key_value N write_key o raw hraw hsa hN hle
    have hfinal : jsonlDerivedAtt smart_attr smart_value smart_default N o =
        raw.take (usizeI N) := by
      simp only [jsonlDerivedAtt, ← hraw]
      by_cases hgt : (raw.length : Int) > N
      · simp [hgt, hN]
      · rw [if_neg (by tauto)]
        rw [take_of_ge_int raw N hN hle hgt]
    refine ⟨hfinal, ?_⟩
    simp only [transform_vertex_jsonl, hfinal]
    have hbase : mapGet (if write_key ∨ (jsonlKW key_value (raw.take (usizeI N)) o).1 ≠ []
        then [(kKey, Json.str (jsonlKW key_value (raw.take (usizeI N)) o).1)] else [])
        smart_attr = none := by
      by_cases hc : write_key ∨ (jsonlKW key_value (raw.take (usizeI N)) o).1 ≠ []
      · rw [if_pos hc, mapGet_cons_ne _ _ _ _ (fun hh => hsa hh.symm)]
        rfl
      · rw [if_neg hc]
        rfl
    rw [List.append_assoc]
    rw [mapGet_append_of_none _ _ _ hbase]
    rw [List.cons_append, mapGet_cons_eq]

/-- Witness for amended C4 at a concrete record. -/
theorem c4_witness :
    ((1 : Int) ≥ 0 ∧ (2 : Int) > 0 ∧ (2 : Int) ≤ (("ABCD".data : Str).length : Int)) ∧
    csvAttStep '"' 0 1 2 ["x".data, "ABCD".data] =
      some (["AB".data, "ABCD".data], "AB".data) := by
  refine ⟨⟨by decide, by decide, by decide⟩, ?_⟩
  have h := c4_truncation_law_amended.1 '"' 0 1 2 ["x".data, "ABCD".data] "ABCD".data
    (by decide) (by decide) (by decide) (by decide) (by decide) (by decide)
  rw [h]
  decide

/-- Counterexample to claim C6: with no `_key` column and `--write-key`
unset, `key_pos` stays `-1`; yet a data row whose configured key-value
column holds an already-composite key with the matching (empty) attribute
text is emitted — with a spurious extra empty column — instead of hitting
the out-of-bounds index. -/
theorem c6_counterexample :
    vertexCsvHeaderSetup ["kv".data, "name".data] "smart_id".data [] "kv".data false =
      (["kv".data, "name".data, "smart_id".data], 3, 2, -1, -1, 0) ∧
    transform_vertex_csv '"' 3 2 (-1) (-1) (-1) 0 [":x".data, "Bob".data] =
      some ([":x".data, "Bob".data, [], []], false) := by
  decide

/-- Claim C6 (amended): with the header missing `_key` and `--write-key`
unset, `key_pos` stays `-1`; with `-1` cast to `usize::MAX`, any row whose
key string is read from the key column, or whose key string must be written
back (no colon, or a colon with mismatched attribute text), indexes out of
bounds and the transform is not total (`none` = panic); the only escape is
a key string from a configured key-value column that is already composite
with text before the colon equal to the derived attribute. -/
theorem c6_key_pos_panic_amended :
    (∀ (headers : List Str) (smart_attr smart_value key_value : Str),
      kKey ∉ headers → smart_attr ≠ kKey →
      (vertexCsvHeaderSetup headers smart_attr smart_value key_value false).2.2.2.2.1 = -1) ∧
    (∀ (quo : Char) (ncols : Nat) (sap svp N kvp : Int) (parts0 : List Str),
      kvp < 0 → parts0.length + 3 < 2 ^ 64 → ncols + 3 < 2 ^ 64 →
      transform_vertex_csv quo ncols sap svp N (-1) kvp parts0 = none) ∧
    (∀ (quo : Char) (kvp : Int) (att key : Str) (parts : List Str),
      csvKeySource quo (-1) kvp parts = some key →
      parts.length < 2 ^ 64 - 1 →
      (':' ∈ key ∧ beforeColon key = att →
        csvKeyStep quo (-1) kvp att parts = some (parts, false)) ∧
      (¬(':' ∈ key ∧ beforeColon key = att) →
        csvKeyStep quo (-1) kvp att parts = none)) := by
  refine ⟨?_, ?_, ?_⟩
  · intro headers smart_attr smart_value key_value hnk hsa
    simp only [vertexCsvHeaderSetup]
    by_cases h0 : find_col_pos headers smart_attr < 0
    · rw [if_pos h0, if_pos h0]
      have : kKey ∉ headers ++ [smart_attr] := by
        intro hh
        rcases List.mem_append.mp hh with h | h
        · exact hnk h
        · simp at h
          exact hsa h.symm
      rw [find_col_pos_neg_of_not_mem _ _ this]
      simp
    · rw [if_neg h0, if_neg h0]
      rw [find_col_pos_neg_of_not_mem _ _ hnk]
      simp
  · intro quo ncols sap svp N kvp parts0 hkvp hp hn
    simp only [transform_vertex_csv]
    have hlen : (extendFor (extendFor (padTo parts0 ncols) sap) (-1)).length < 2 ^ 64 - 1 := by
      have l1 := length_padTo parts0 ncols
      have l2 := extendFor_length (padTo parts0 ncols) sap
      have l3 := extendFor_length (extendFor (padTo parts0 ncols) sap) (-1)
      rw [usizeI_neg_one] at l3
      split_ifs at l2 l3 <;> omega
    rcases hstep : csvAttStep quo sap svp N
        (extendFor (extendFor (padTo parts0 ncols) sap) (-1)) with _ | pr
    · rfl
    · obtain ⟨pa, att⟩ := pr
      have hl := csvAttStep_length _ _ _ _ _ _ _ hstep
      simp only [csvKeyStep, csvKeySource]
      rw [if_neg (by omega : ¬(kvp ≥ 0 ∧ usizeI kvp < pa.length))]
      rw [if_neg (by rw [usizeI_neg_one]; omega)]
  · intro quo kvp att key parts hsrc hlt
    constructor
    · rintro ⟨hc, hpre⟩
      simp only [csvKeyStep, hsrc, if_pos hc]
      rw [if_neg (by simpa using hpre)]
    · intro hne
      simp only [csvKeyStep, hsrc]
      by_cases hc : ':' ∈ key
      · rw [if_pos hc]
        have hpre : beforeColon key ≠ att := by tauto
        rw [if_pos hpre]
        rw [if_neg (by rw [usizeI_neg_one]; omega)]
      · rw [if_neg hc]
        rw [if_neg (by rw [usizeI_neg_one]; omega)]

/-- Witness for amended C6 at a concrete header and row. -/
theorem c6_witness :
    kKey ∉ [("name".data : Str)] ∧
    (vertexCsvHeaderSetup ["name".data] "smart_id".data [] [] false).2.2.2.2.1 = -1 ∧
    transform_vertex_csv '"' 2 1 (-1) (-1) (-1) (-1) ["Alice".data] = none := by
  refine ⟨by decide, ?_, ?_⟩
  · exact c6_key_pos_panic_amended.1 ["name".data] "smart_id".data [] []
      (by decide) (by decide)
  · exact c6_key_pos_panic_amended.2.1 '"' 2 1 (-1) (-1) (-1) ["Alice".data]
      (by decide) (by decide) (by decide)

/-- Claim C7: the direct-truncation scenario D — `_from=persons/DE12345`,
`_to=persons/FR9876`, smart index 2, both collections `persons` — rewrites
the endpoints to `persons/DE:DE12345` and `persons/FR:FR9876` with no table
lookup (the table is empty) and turns the key `e1` into `DE:e1:FR`. -/
theorem c7_scenario_d :
    transform_edges_csv_row '"' 2 do_edges_translation "persons".data "persons".data 0 1 2 3
      ["persons/DE12345".data, "persons/FR9876".data, "e1".data] =
      some ["persons/DE:DE12345".data, "persons/FR:FR9876".data, "DE:e1:FR".data] := by
  decide

/-- Claim C8: when the derived key string is already composite and its text
before the colon differs from the derived attribute, a diagnostic is emitted
in both encodings and they diverge exactly as specified: the tabular path
rewrites the key field to `attribute:suffix`, while the object path leaves
the already-composite key unchanged. -/
theorem c8_mismatch_divergence :
    (∀ (quo : Char) (kp kvp : Int) (att key : Str) (parts : List Str),
      csvKeySource quo kp kvp parts = some key →
      ':' ∈ key → beforeColon key ≠ att →
      usizeI kp < parts.length →
      csvKeyStep quo kp kvp att parts =
        some (parts.set (usizeI kp) (quote_string (att ++ ':' :: afterColon key) quo),
          true)) ∧
    (∀ (smart_attr smart_value smart_default key_value : Str) (N : Int) (write_key : Bool)
      (o : Obj) (final ks : Str),
      final = jsonlDerivedAtt smart_attr smart_value smart_default N o →
      jsonlKeySlice key_value o = some (.str ks) →
      ':' ∈ ks → beforeColon ks ≠ final →
      smart_attr ≠ kKey →
      (transform_vertex_jsonl smart_attr smart_value smart_default key_value N
        write_key o).2 = true ∧
      mapGet ((transform_vertex_jsonl smart_attr smart_value smart_default key_value N
        write_key o).1) kKey = some (.str ks)) := by
  constructor
  · intro quo kp kvp att key parts hsrc hc hmis hb
    simp only [csvKeyStep, hsrc, if_pos hc, if_pos hmis, if_pos hb]
  · intro smart_attr smart_value smart_default key_value N write_key o final ks
      hfinal hks hc hmis hsa
    have hkne : ks ≠ [] := by
      intro hh
      rw [hh] at hc
      simp at hc
    constructor
    · simp only [transform_vertex_jsonl, jsonlKW, ← hfinal, hks, if_pos hc]
      exact decide_eq_true hmis
    · simp only [transform_vertex_jsonl, jsonlKW, ← hfinal, hks, if_pos hc]
      rw [if_pos (Or.inr hkne)]
      rw [List.append_assoc, List.cons_append, mapGet_cons_eq]

/-- Witness for C8 at a concrete mismatching record. -/
theorem c8_witness :
    (':' ∈ ("FR:bob".data : Str) ∧ beforeColon "FR:bob".data ≠ "DE".data) ∧
    csvKeyStep '"' 1 (-1) "DE".data ["x".data, "FR:bob".data] =
      some (["x".data, "DE:bob".data], true) := by
  refine ⟨⟨by decide, by decide⟩, ?_⟩
  have h := c8_mismatch_divergence.1 '"' 1 (-1) "DE".data "FR:bob".data
    ["x".data, "FR:bob".data] (by decide) (by decide) (by decide) (by decide)
  rw [h]
  decide

/-- Claim C9: for every string containing the quote character, wrapping it
in the quote character with internal occurrences doubled and then unquoting
reproduces the string exactly. -/
theorem c9_quote_roundtrip (s : Str) (quo : Char) (_h : quo ∈ s) :
    unquote (quote_string s quo) quo = s :=
  unquote_quote_string s quo

/-- Witness for C9 at a concrete string containing the quote character. -/
theorem c9_witness :
    '"' ∈ ("a\"b".data : Str) ∧ unquote (quote_string "a\"b".data '"') '"' = "a\"b".data :=
  ⟨by decide, c9_quote_roundtrip "a\"b".data '"' (by decide)⟩

/-- Claim C10: the per-file fatal conditions map to the claimed distinct
small status codes (vertices: 1 open, 2 create, 3 header, 4 flush; edge
file: 1 open, 2 temp create, 3 header, 4 missing `_from`/`_to`, 5 flush; 0
is success), and `do_edges` processes edge specifications sequentially,
returning the first non-zero status without processing the rest. -/
theorem c10_status_codes :
    (∀ io : VertexIO,
      (do_vertices_status .CSV io = 1 ↔ io.openOk = false) ∧
      (do_vertices_status .CSV io = 2 ↔ io.openOk = true ∧ io.createOk = false) ∧
      (do_vertices_status .CSV io = 3 ↔
        io.openOk = true ∧ io.createOk = true ∧ io.headerLine = none) ∧
      (do_vertices_status .CSV io = 4 ↔
        io.openOk = true ∧ io.createOk = true ∧ io.headerLine ≠ none ∧ io.flushOk = false) ∧
      (do_vertices_status .CSV io = 0 ↔
        io.openOk = true ∧ io.createOk = true ∧ io.headerLine ≠ none ∧ io.flushOk = true)) ∧
    (∀ (sep quo : Char) (renames : List (Nat × Str)) (io : EdgeIO),
      (transform_edges_csv_status sep quo renames io = 1 ↔ io.openOk = false) ∧
      (transform_edges_csv_status sep quo renames io = 2 ↔
        io.openOk = true ∧ io.createOk = false) ∧
      (transform_edges_csv_status sep quo renames io = 3 ↔
        io.openOk = true ∧ io.createOk = true ∧ io.headerLine = none) ∧
      (transform_edges_csv_status sep quo renames io = 4 ↔
        io.openOk = true ∧ io.createOk = true ∧
        ∃ h, io.headerLine = some h ∧ edgeHeaderMissingFromTo sep quo renames h) ∧
      (transform_edges_csv_status sep quo renames io = 5 ↔
        io.openOk = true ∧ io.createOk = true ∧ io.flushOk = false ∧
        ∃ h, io.headerLine = some h ∧ ¬edgeHeaderMissingFromTo sep quo renames h) ∧
      (transform_edges_csv_status sep quo renames io = 0 ↔
        io.openOk = true ∧ io.createOk = true ∧ io.flushOk = true ∧
        ∃ h, io.headerLine = some h ∧ ¬edgeHeaderMissingFromTo sep quo renames h)) ∧
    (∀ (sep quo : Char) (pre : List (List (Nat × Str) × EdgeIO)) bad post,
      (∀ s ∈ pre, transform_edges_csv_status sep quo s.1 s.2 = 0) →
      transform_edges_csv_status sep quo bad.1 bad.2 ≠ 0 →
      do_edges_csv sep quo (pre ++ bad :: post) =
        (transform_edges_csv_status sep quo bad.1 bad.2, pre.length + 1)) := by
  refine ⟨?_, ?_, fun sep quo pre bad post hpre hbad =>
    do_edges_first_failure sep quo pre bad post hpre hbad⟩
  · rintro ⟨o, c, h, f⟩
    cases o <;> cases c <;> cases f <;> cases h <;>
      simp [do_vertices_status]
  · intro sep quo renames io
    obtain ⟨o, c, h, f⟩ := io
    cases h with
    | none =>
      cases o <;> cases c <;> cases f <;> simp [transform_edges_csv_status]
    | some hh =>
      by_cases hm : edgeHeaderMissingFromTo sep quo renames hh <;>
        cases o <;> cases c <;> cases f <;>
          simp [transform_edges_csv_status, hm]

/-- Witness for C10: a concrete run where the second edge specification
cannot be opened stops with status 1 after two files regardless of the
third. -/
theorem c10_witness :
    transform_edges_csv_status ',' '"' [] ⟨false, true, none, true⟩ ≠ 0 ∧
    do_edges_csv ',' '"'
      [([], ⟨true, true, some "_from,_to".data, true⟩), ([], ⟨false, true, none, true⟩),
        ([], ⟨true, true, none, true⟩)] =
      (transform_edges_csv_status ',' '"' [] ⟨false, true, none, true⟩, 2) := by
  refine ⟨by decide, ?_⟩
  have h := c10_status_codes.2.2 ',' '"'
    [([], ⟨true, true, some "_from,_to".data, true⟩)]
    (([], ⟨false, true, none, true⟩))
    [([], ⟨true, true, none, true⟩)]
    (by
      intro s hs
      simp only [List.mem_singleton] at hs
      subst hs
      decide)
    (by decide)
  simpa using h

/-- Counterexample to claim C5: the tabular vertex transform is not
idempotent byte-for-byte — with an attribute value containing a colon
(`a:b`), the first pass turns the key `k` into `a:b:k`, and the second pass
sees the mismatching text `a` before the first colon and rewrites the key to
`a:b:b:k`, a different line (with a diagnostic). -/
theorem c5_counterexample :
    transform_vertex_csv_line ',' '"' 2 0 (-1) (-1) 1 (-1) "a:b,k".data =
      some ("a:b,a:b:k".data, false) ∧
    transform_vertex_csv_line ',' '"' 2 0 (-1) (-1) 1 (-1) "a:b,a:b:k".data =
      some ("a:b,a:b:b:k".data, true) ∧
    ("a:b,a:b:b:k".data : Str) ≠ "a:b,a:b:k".data := by
  decide

theorem set_of_getD_eq {α : Type} (l : List α) (i : Nat) (v d : α) (h : i < l.length)
    (hv : l.getD i d = v) : l.set i v = l := by
  rw [← hv]
  exact listSet_getD_self l i d h

theorem trunc_trunc (N : Int) (v w : Str)
    (hw : w = if N > 0 ∧ (v.length : Int) > N then v.take (usizeI N) else v) :
    (if N > 0 ∧ (w.length : Int) > N then w.take (usizeI N) else w) = w := by
  by_cases h : N > 0 ∧ (v.length : Int) > N
  · rw [if_pos h] at hw
    have hN' : usizeI N = N.toNat := usizeI_nonneg N (by omega)
    have hlen : (w.length : Int) ≤ N := by
      rw [hw]
      simp [List.length_take]
      omega
    rw [if_neg (by omega)]
  · rw [if_neg h] at hw
    subst hw
    rw [if_neg h]

theorem csvAttStep_char (quo : Char) (sap svp N : Int) (parts pa : List Str) (att : Str)
    (hstep : csvAttStep quo sap svp N parts = some (pa, att)) :
    (svp ≥ 0 ∧ usizeI svp < parts.length →
      att = (if N > 0 ∧ ((unquote (parts.getD (usizeI svp) []) quo).length : Int) > N then
          (unquote (parts.getD (usizeI svp) []) quo).take (usizeI N)
        else unquote (parts.getD (usizeI svp) []) quo) ∧
      pa = parts.set (usizeI sap) (quote_string att quo)) ∧
    (¬(svp ≥ 0 ∧ usizeI svp < parts.length) →
      att = unquote (parts.getD (usizeI sap) []) quo ∧ pa = parts) := by
  constructor
  · intro h1
    simp only [csvAttStep, if_pos h1] at hstep
    by_cases h2 : usizeI sap < parts.length
    · rw [if_pos h2] at hstep
      have hinj := Option.some_inj.mp hstep
      injection hinj with hpa hatt
      exact ⟨hatt.symm, by rw [← hpa, hatt]⟩
    · rw [if_neg h2] at hstep
      exact absurd hstep (by simp)
  · intro h1
    simp only [csvAttStep, if_neg h1] at hstep
    by_cases h2 : usizeI sap < parts.length
    · rw [if_pos h2] at hstep
      have hinj := Option.some_inj.mp hstep
      injection hinj with hpa hatt
      exact ⟨hatt.symm, hpa.symm⟩
    · rw [if_neg h2] at hstep
      exact absurd hstep (by simp)

theorem csvAttStep_stored (quo : Char) (sap svp N : Int) (parts pa : List Str) (att : Str)
    (hstep : csvAttStep quo sap svp N parts = some (pa, att))
    (hb : usizeI sap < parts.length) :
    unquote (pa.getD (usizeI sap) []) quo = att := by
  have hc := csvAttStep_char quo sap svp N parts pa att hstep
  by_cases h1 : svp ≥ 0 ∧ usizeI svp < parts.length
  · obtain ⟨hatt, hpa⟩ := hc.1 h1
    rw [hpa, listGetD_set_self _ _ _ _ hb]
    exact unquote_quote_string att quo
  · obtain ⟨hatt, hpa⟩ := hc.2 h1
    rw [hpa, ← hatt]

theorem csvAttStep_untouched (quo : Char) (sap svp N : Int) (parts pa : List Str)
    (att : Str) (j : Nat) (d : Str)
    (hstep : csvAttStep quo sap svp N parts = some (pa, att))
    (hj : j ≠ usizeI sap) : pa.getD j d = parts.getD j d := by
  have hc := csvAttStep_char quo sap svp N parts pa att hstep
  by_cases h1 : svp ≥ 0 ∧ usizeI svp < parts.length
  · obtain ⟨_, hpa⟩ := hc.1 h1
    rw [hpa, listGetD_set_ne _ _ _ _ _ (fun hh => hj hh.symm)]
  · obtain ⟨_, hpa⟩ := hc.2 h1
    rw [hpa]

theorem csvKeyStep_char (quo : Char) (kp kvp : Int) (att key : Str) (parts : List Str)
    (hsrc : csvKeySource quo kp kvp parts = some key) (hb : usizeI kp < parts.length) :
    (':' ∉ key → csvKeyStep quo kp kvp att parts =
      some (parts.set (usizeI kp) (quote_string (att ++ ':' :: key) quo), false)) ∧
    (':' ∈ key → beforeColon key = att →
      csvKeyStep quo kp kvp att parts = some (parts, false)) ∧
    (':' ∈ key → beforeColon key ≠ att →
      csvKeyStep quo kp kvp att parts =
        some (parts.set (usizeI kp) (quote_string (att ++ ':' :: afterColon key) quo),
          true)) := by
  refine ⟨?_, ?_, ?_⟩
  · intro hc
    simp only [csvKeyStep, hsrc, if_neg hc, if_pos hb]
  · intro hc hm
    simp only [csvKeyStep, hsrc, if_pos hc]
    rw [if_neg (by simpa using hm)]
  · intro hc hm
    simp only [csvKeyStep, hsrc, if_pos hc, if_pos hm, if_pos hb]

theorem csvKeySource_kvp (quo : Char) (kp kvp : Int) (parts : List Str)
    (h1 : kvp ≥ 0) (h2 : usizeI kvp < parts.length) :
    csvKeySource quo kp kvp parts = some (unquote (parts.getD (usizeI kvp) []) quo) := by
  simp only [csvKeySource, if_pos (And.intro h1 h2)]

theorem csvKeySource_kp (quo : Char) (kp kvp : Int) (parts : List Str)
    (h1 : ¬(kvp ≥ 0 ∧ usizeI kvp < parts.length)) (h2 : usizeI kp < parts.length) :
    csvKeySource quo kp kvp parts = some (unquote (parts.getD (usizeI kp) []) quo) := by
  simp only [csvKeySource, if_neg h1, if_pos h2]

theorem c5_csv_vertex_idem (quo : Char) (ncols : Nat) (sap svp N kp kvp : Int)
    (parts0 p1 : List Str) (b1 : Bool)
    (hsap0 : 0 ≤ sap) (hkp0 : 0 ≤ kp)
    (hsap : sap.toNat < ncols) (hkp : kp.toNat < ncols)
    (hne : sap.toNat ≠ kp.toNat)
    (hsvp : svp ≥ 0 → svp.toNat < ncols ∧ svp.toNat ≠ kp.toNat)
    (hkvp : kvp ≥ 0 → kvp.toNat < ncols ∧ kvp.toNat ≠ kp.toNat ∧ kvp.toNat ≠ sap.toNat)
    (hattc : ∀ pa att, csvAttStep quo sap svp N (padTo parts0 ncols) = some (pa, att) →
      ':' ∉ att)
    (hrun : transform_vertex_csv quo ncols sap svp N kp kvp parts0 = some (p1, b1)) :
    ∃ b2, transform_vertex_csv quo ncols sap svp N kp kvp p1 = some (p1, b2) := by
  have husap : usizeI sap = sap.toNat := usizeI_nonneg sap hsap0
  have hukp : usizeI kp = kp.toNat := usizeI_nonneg kp hkp0
  set P := padTo parts0 ncols with hPdef
  have hlenP : ncols ≤ P.length := by rw [hPdef, length_padTo]; omega
  have hsapP : usizeI sap < P.length := by omega
  have hkpP : usizeI kp < P.length := by omega
  have hsapkp : usizeI sap ≠ usizeI kp := by omega
  have hextP : extendFor (extendFor P sap) kp = P := by
    have h1 : extendFor P sap = P := by
      simp only [extendFor]
      rw [if_neg (by omega)]
    rw [h1]
    simp only [extendFor]
    rw [if_neg (by omega)]
  simp only [transform_vertex_csv] at hrun
  rw [← hPdef, hextP] at hrun
  rcases hstep : csvAttStep quo sap svp N P with _ | pr
  · rw [hstep] at hrun
    exact absurd hrun (by simp)
  obtain ⟨pa, att⟩ := pr
  rw [hstep] at hrun
  replace hrun : csvKeyStep quo kp kvp att pa = some (p1, b1) := hrun
  have hattcol : ':' ∉ att := hattc pa att hstep
  have hpalen : pa.length = P.length := csvAttStep_length _ _ _ _ _ _ _ hstep
  have hstored : unquote (pa.getD (usizeI sap) []) quo = att :=
    csvAttStep_stored _ _ _ _ _ _ _ hstep hsapP
  have hchar := csvAttStep_char quo sap svp N P pa att hstep
  -- the key string of the first pass
  rcases hsrc : csvKeySource quo kp kvp pa with _ | key
  · exfalso
    simp only [csvKeySource] at hsrc
    split_ifs at hsrc <;> simp_all <;> omega
  have hkchar := csvKeyStep_char quo kp kvp att key pa hsrc (by omega)
  -- facts we will reuse
  have hp1len : p1.length = P.length := by
    by_cases hck : ':' ∈ key
    · by_cases hmis : beforeColon key = att
      · rw [hkchar.2.1 hck hmis] at hrun
        have hinj := Option.some_inj.mp hrun
        injection hinj with hp hb
        rw [← hp]
        exact hpalen
      · rw [hkchar.2.2 hck hmis] at hrun
        have hinj := Option.some_inj.mp hrun
        injection hinj with hp hb
        rw [← hp]
        simp [hpalen]
    · rw [hkchar.1 hck] at hrun
      have hinj := Option.some_inj.mp hrun
      injection hinj with hp hb
      rw [← hp]
      simp [hpalen]
  have hp1at : ∀ j : Nat, j ≠ usizeI kp → p1.getD j [] = pa.getD j [] := by
    intro j hj
    by_cases hck : ':' ∈ key
    · by_cases hmis : beforeColon key = att
      · rw [hkchar.2.1 hck hmis] at hrun
        have hinj := Option.some_inj.mp hrun
        injection hinj with hp hb
        rw [← hp]
      · rw [hkchar.2.2 hck hmis] at hrun
        have hinj := Option.some_inj.mp hrun
        injection hinj with hp hb
        rw [← hp, listGetD_set_ne _ _ _ _ _ (fun hh => hj hh.symm)]
    · rw [hkchar.1 hck] at hrun
      have hinj := Option.some_inj.mp hrun
      injection hinj with hp hb
      rw [← hp, listGetD_set_ne _ _ _ _ _ (fun hh => hj hh.symm)]
  have hp1sap : p1.getD (usizeI sap) [] = pa.getD (usizeI sap) [] :=
    hp1at (usizeI sap) hsapkp
  -- second-pass padding and extension are identities
  have hpadp1 : padTo p1 ncols = p1 := padTo_of_le _ _ (by omega)
  have hextp1 : extendFor (extendFor (padTo p1 ncols) sap) kp = p1 := by
    rw [hpadp1]
    have h1 : extendFor p1 sap = p1 := by
      simp only [extendFor]
      rw [if_neg (by omega)]
    rw [h1]
    simp only [extendFor]
    rw [if_neg (by omega)]
  -- the second attribute step returns the same row and attribute
  have hstep2 : csvAttStep quo sap svp N p1 = some (p1, att) := by
    by_cases hsv : svp ≥ 0
    · obtain ⟨hsvlt, hsvkp⟩ := hsvp hsv
      have husvp : usizeI svp = svp.toNat := usizeI_nonneg svp hsv
      obtain ⟨hatt1, hpa1⟩ := hchar.1 ⟨hsv, by omega⟩
      have hval2 : (if N > 0 ∧ ((unquote (p1.getD (usizeI svp) []) quo).length : Int) > N
          then (unquote (p1.getD (usizeI svp) []) quo).take (usizeI N)
          else unquote (p1.getD (usizeI svp) []) quo) = att := by
        by_cases hss : usizeI svp = usizeI sap
        · rw [hss, hp1sap, hstored]
          exact trunc_trunc N _ att hatt1
        · have h2 : p1.getD (usizeI svp) [] = pa.getD (usizeI svp) [] :=
            hp1at (usizeI svp) (by omega)
          have h3 : pa.getD (usizeI svp) [] = P.getD (usizeI svp) [] :=
            csvAttStep_untouched quo sap svp N P pa att (usizeI svp) [] hstep hss
          rw [h2, h3, ← hatt1]
      have hq : p1.getD (usizeI sap) [] = quote_string att quo := by
        rw [hp1sap, hpa1, listGetD_set_self _ _ _ _ hsapP]
      simp only [csvAttStep,
        if_pos (And.intro hsv (show usizeI svp < p1.length by omega)), hval2,
        if_pos (show usizeI sap < p1.length by omega)]
      rw [set_of_getD_eq p1 (usizeI sap) (quote_string att quo) [] (by omega) hq]
    · have hcond : ¬(svp ≥ 0 ∧ usizeI svp < p1.length) := fun hh => hsv hh.1
      simp only [csvAttStep, if_neg hcond,
        if_pos (show usizeI sap < p1.length by omega)]
      rw [hp1sap, hstored]
  -- assemble the second pass
  simp only [transform_vertex_csv]
  rw [hextp1, hstep2]
  show ∃ b2, csvKeyStep quo kp kvp att p1 = some (p1, b2)
  by_cases hkv : kvp ≥ 0
  · obtain ⟨hkvlt, hkvkp, hkvsap⟩ := hkvp hkv
    have hukvp : usizeI kvp = kvp.toNat := usizeI_nonneg kvp hkv
    have hkey1 : key = unquote (pa.getD (usizeI kvp) []) quo := by
      rw [csvKeySource_kvp quo kp kvp pa hkv (by omega)] at hsrc
      exact (Option.some_inj.mp hsrc).symm
    have hk2 : unquote (p1.getD (usizeI kvp) []) quo = key := by
      rw [hp1at (usizeI kvp) (by omega), ← hkey1]
    have hk2src : csvKeySource quo kp kvp p1 = some key := by
      rw [csvKeySource_kvp quo kp kvp p1 hkv (by omega), hk2]
    have hkchar2 := csvKeyStep_char quo kp kvp att key p1 hk2src (by omega)
    by_cases hck : ':' ∈ key
    · by_cases hmis : beforeColon key = att
      · exact ⟨false, by rw [hkchar2.2.1 hck hmis]⟩
      · refine ⟨true, ?_⟩
        rw [hkchar2.2.2 hck hmis]
        have hw : p1.getD (usizeI kp) [] =
            quote_string (att ++ ':' :: afterColon key) quo := by
          rw [hkchar.2.2 hck hmis] at hrun
          have hinj := Option.some_inj.mp hrun
          injection hinj with hp hb
          rw [← hp, listGetD_set_self _ _ _ _ (by omega)]
        rw [set_of_getD_eq p1 (usizeI kp) _ [] (by omega) hw]
    · refine ⟨false, ?_⟩
      rw [hkchar2.1 hck]
      have hw : p1.getD (usizeI kp) [] = quote_string (att ++ ':' :: key) quo := by
        rw [hkchar.1 hck] at hrun
        have hinj := Option.some_inj.mp hrun
        injection hinj with hp hb
        rw [← hp, listGetD_set_self _ _ _ _ (by omega)]
      rw [set_of_getD_eq p1 (usizeI kp) _ [] (by omega) hw]
  · have hnokv1 : ¬(kvp ≥ 0 ∧ usizeI kvp < pa.length) := fun hh => hkv hh.1
    have hnokv2 : ¬(kvp ≥ 0 ∧ usizeI kvp < p1.length) := fun hh => hkv hh.1
    have hkey1 : key = unquote (pa.getD (usizeI kp) []) quo := by
      rw [csvKeySource_kp quo kp kvp pa hnokv1 (by omega)] at hsrc
      exact (Option.some_inj.mp hsrc).symm
    by_cases hck : ':' ∈ key
    · by_cases hmis : beforeColon key = att
      · have hp1pa : p1 = pa := by
          rw [hkchar.2.1 hck hmis] at hrun
          have hinj := Option.some_inj.mp hrun
          injection hinj with hp hb
          exact hp.symm
        have hk2src : csvKeySource quo kp kvp p1 = some key := by
          rw [csvKeySource_kp quo kp kvp p1 hnokv2 (by omega), hp1pa, ← hkey1]
        have hkchar2 := csvKeyStep_char quo kp kvp att key p1 hk2src (by omega)
        exact ⟨false, by rw [hkchar2.2.1 hck hmis]⟩
      · have hw : p1.getD (usizeI kp) [] =
            quote_string (att ++ ':' :: afterColon key) quo := by
          rw [hkchar.2.2 hck hmis] at hrun
          have hinj := Option.some_inj.mp hrun
          injection hinj with hp hb
          rw [← hp, listGetD_set_self _ _ _ _ (by omega)]
        have hk2src : csvKeySource quo kp kvp p1 =
            some (att ++ ':' :: afterColon key) := by
          rw [csvKeySource_kp quo kp kvp p1 hnokv2 (by omega), hw, unquote_quote_string]
        have hkchar2 := csvKeyStep_char quo kp kvp att (att ++ ':' :: afterColon key) p1
          hk2src (by omega)
        exact ⟨false, by
          rw [hkchar2.2.1 (colon_mem_prepend att _) (beforeColon_prepend _ _ hattcol)]⟩
    · have hw : p1.getD (usizeI kp) [] = quote_string (att ++ ':' :: key) quo := by
        rw [hkchar.1 hck] at hrun
        have hinj := Option.some_inj.mp hrun
        injection hinj with hp hb
        rw [← hp, listGetD_set_self _ _ _ _ (by omega)]
      have hk2src : csvKeySource quo kp kvp p1 = some (att ++ ':' :: key) := by
        rw [csvKeySource_kp quo kp kvp p1 hnokv2 (by omega), hw, unquote_quote_string]
      have hkchar2 := csvKeyStep_char quo kp kvp att (att ++ ':' :: key) p1 hk2src
        (by omega)
      exact ⟨false, by
        rw [hkchar2.2.1 (colon_mem_prepend att _) (beforeColon_prepend _ _ hattcol)]⟩

theorem filter_idem {α : Type} (p : α → Bool) (l : List α) :
    (l.filter p).filter p = l.filter p := by
  rw [List.filter_filter]
  have : (fun a => p a && p a) = p := by
    funext a
    exact Bool.and_self (p a)
  rw [this]

theorem jsonlDerivedAtt_congr (sa sv d : Str) (N : Int) (o o2 : Obj)
    (h : (if sv ≠ [] then smart_to_string (mapGet o2 sv) d
          else smart_to_string (mapGet o2 sa) d) =
         (if sv ≠ [] then smart_to_string (mapGet o sv) d
          else smart_to_string (mapGet o sa) d)) :
    jsonlDerivedAtt sa sv d N o2 = jsonlDerivedAtt sa sv d N o := by
  simp only [jsonlDerivedAtt]
  rw [h]

theorem jsonlDerivedAtt_of_value (sa sv d : Str) (N : Int) (o : Obj) (v : Str)
    (h : (if sv ≠ [] then smart_to_string (mapGet o sv) d
          else smart_to_string (mapGet o sa) d) = v) :
    jsonlDerivedAtt sa sv d N o =
      (if N > 0 ∧ (v.length : Int) > N then v.take (usizeI N) else v) := by
  simp only [jsonlDerivedAtt]
  rw [h]

theorem c5_jsonl_vertex_idem (smart_attr smart_value smart_default key_value : Str)
    (N : Int) (write_key : Bool) (o : Obj)
    (hsa : smart_attr ≠ kKey)
    (hsv : smart_value = [] ∨ smart_value ≠ kKey)
    (hkv : key_value = [] ∨ key_value ≠ smart_attr)
    (hwk : write_key = true → ∃ ks, jsonlKeySlice key_value o = some (.str ks)) :
    (transform_vertex_jsonl smart_attr smart_value smart_default key_value N write_key
      ((transform_vertex_jsonl smart_attr smart_value smart_default key_value N
        write_key o).1)).1 =
    (transform_vertex_jsonl smart_attr smart_value smart_default key_value N
      write_key o).1 := by
  simp only [transform_vertex_jsonl]
  set fin1 := jsonlDerivedAtt smart_attr smart_value smart_default N o with hfin1
  set kw1 := jsonlKW key_value fin1 o with hkw1
  set F := o.filter (jsonlFilterPred smart_attr) with hFdef
  set base1 : Obj :=
    (if write_key = true ∨ kw1.1 ≠ [] then [(kKey, Json.str kw1.1)] else []) with hbase1
  set o1 : Obj := base1 ++ [(smart_attr, Json.str fin1)] ++ F with ho1
  -- basic lookups in o1
  have hbase1_sa : mapGet base1 smart_attr = none := by
    rw [hbase1]
    by_cases hc : write_key = true ∨ kw1.1 ≠ []
    · rw [if_pos hc, mapGet_cons_ne _ _ _ _ (fun hh => hsa hh.symm)]
      rfl
    · rw [if_neg hc]
      rfl
  have hF_kKey : mapGet F kKey = none := by
    rw [hFdef]
    exact mapGet_filter_of_false _ _ _ (fun w => by simp [jsonlFilterPred])
  have hF_sa : mapGet F smart_attr = none := by
    rw [hFdef]
    exact mapGet_filter_of_false _ _ _ (fun w => by simp [jsonlFilterPred])
  have hgetsa : mapGet o1 smart_attr = some (.str fin1) := by
    rw [ho1, List.append_assoc]
    rw [mapGet_append_of_none _ _ _ hbase1_sa]
    rw [List.cons_append, mapGet_cons_eq]
  have ho1_at : ∀ k, k ≠ kKey → k ≠ smart_attr → mapGet o1 k = mapGet o k := by
    intro k h1 h2
    have hbk : mapGet base1 k = none := by
      rw [hbase1]
      by_cases hc : write_key = true ∨ kw1.1 ≠ []
      · rw [if_pos hc, mapGet_cons_ne _ _ _ _ (fun hh => h1 hh.symm)]
        rfl
      · rw [if_neg hc]
        rfl
    rw [ho1, List.append_assoc, mapGet_append_of_none _ _ _ hbk]
    rw [List.cons_append, mapGet_cons_ne _ _ _ _ (fun hh => h2 hh.symm)]
    rw [hFdef]
    exact mapGet_filter_of_true _ _ _ (fun w => by simp [jsonlFilterPred, h1, h2])
  have ho1_kKey : mapGet o1 kKey =
      (if write_key = true ∨ kw1.1 ≠ [] then some (Json.str kw1.1) else none) := by
    by_cases hc : write_key = true ∨ kw1.1 ≠ []
    · rw [if_pos hc, ho1, List.append_assoc]
      have : base1 = [(kKey, Json.str kw1.1)] := by rw [hbase1, if_pos hc]
      rw [this, List.cons_append, mapGet_cons_eq]
    · rw [if_neg hc, ho1, List.append_assoc]
      have : base1 = [] := by rw [hbase1, if_neg hc]
      rw [this, List.nil_append]
      rw [List.cons_append, mapGet_cons_ne _ _ _ _ hsa]
      exact hF_kKey
  -- the derived attribute of the second pass
  have hav1 : fin1 = (if N > 0 ∧
      (((if smart_value ≠ [] then smart_to_string (mapGet o smart_value) smart_default
        else smart_to_string (mapGet o smart_attr) smart_default)).length : Int) > N then
      ((if smart_value ≠ [] then smart_to_string (mapGet o smart_value) smart_default
        else smart_to_string (mapGet o smart_attr) smart_default)).take (usizeI N)
      else (if smart_value ≠ [] then smart_to_string (mapGet o smart_value) smart_default
        else smart_to_string (mapGet o smart_attr) smart_default)) := hfin1
  have hfin2 : jsonlDerivedAtt smart_attr smart_value smart_default N o1 = fin1 := by
    by_cases hsve : smart_value = []
    · subst hsve
      have hv2 : (if ([] : Str) ≠ [] then smart_to_string (mapGet o1 []) smart_default
          else smart_to_string (mapGet o1 smart_attr) smart_default) = fin1 := by
        rw [if_neg (by simp), hgetsa]
        rfl
      rw [jsonlDerivedAtt_of_value smart_attr [] smart_default N o1 fin1 hv2]
      exact trunc_trunc N _ fin1 hav1
    · by_cases hsvsa : smart_value = smart_attr
      · have hv2 : (if smart_value ≠ [] then
            smart_to_string (mapGet o1 smart_value) smart_default
            else smart_to_string (mapGet o1 smart_attr) smart_default) = fin1 := by
          rw [if_pos (by simpa using hsve), hsvsa, hgetsa]
          rfl
        rw [jsonlDerivedAtt_of_value smart_attr smart_value smart_default N o1 fin1 hv2]
        exact trunc_trunc N _ fin1 hav1
      · have hsvk : smart_value ≠ kKey := by tauto
        have hcongr : (if smart_value ≠ [] then
            smart_to_string (mapGet o1 smart_value) smart_default
            else smart_to_string (mapGet o1 smart_attr) smart_default) =
            (if smart_value ≠ [] then smart_to_string (mapGet o smart_value) smart_default
             else smart_to_string (mapGet o smart_attr) smart_default) := by
          rw [if_pos (by simpa using hsve), if_pos (by simpa using hsve)]
          rw [ho1_at smart_value hsvk hsvsa]
        rw [jsonlDerivedAtt_congr smart_attr smart_value smart_default N o o1 hcongr,
          ← hfin1]
  -- the key/warn pair of the second pass has the same key component
  have hkwfst : (jsonlKW key_value fin1 o1).1 = kw1.1 := by
    by_cases hkvk : key_value = [] ∨ key_value = kKey
    · have hs2 : jsonlKeySlice key_value o1 = mapGet o1 kKey := by
        rcases hkvk with h | h
        · simp [jsonlKeySlice, h]
        · simp [jsonlKeySlice, h]
      by_cases hb : write_key = true ∨ kw1.1 ≠ []
      · have hs3 : jsonlKeySlice key_value o1 = some (Json.str kw1.1) := by
          rw [hs2, ho1_kKey, if_pos hb]
        rw [show jsonlKW key_value fin1 o1 =
            (if ':' ∈ kw1.1 then (kw1.1, decide (beforeColon kw1.1 ≠ fin1))
             else if fin1 ≠ [] then (fin1 ++ ':' :: kw1.1, false)
             else (kw1.1, false)) from by rw [jsonlKW, hs3]]
        by_cases hc : ':' ∈ kw1.1
        · rw [if_pos hc]
        · rw [if_neg hc]
          have hfin_nil : fin1 = [] := by
            rcases hslice1 : jsonlKeySlice key_value o with _ | j
            · rcases hb with hb | hb
              · obtain ⟨ks, hks⟩ := hwk hb
                rw [hslice1] at hks
                exact absurd hks (by simp)
              · rw [hkw1, jsonlKW, hslice1] at hb
                simp at hb
            · cases j with
              | str ks =>
                have hkw1v : kw1 = (if ':' ∈ ks then
                    (ks, decide (beforeColon ks ≠ fin1))
                    else if fin1 ≠ [] then (fin1 ++ ':' :: ks, false)
                    else (ks, false)) := by
                  rw [hkw1, jsonlKW, hslice1]
                by_cases hcks : ':' ∈ ks
                · rw [if_pos hcks] at hkw1v
                  rw [hkw1v] at hc
                  exact absurd hcks hc
                · rw [if_neg hcks] at hkw1v
                  by_cases hf : fin1 ≠ []
                  · rw [if_pos hf] at hkw1v
                    rw [hkw1v] at hc
                    exact absurd (colon_mem_prepend fin1 ks) hc
                  · simpa using hf
              | null =>
                have hkw1v : kw1.1 = [] := by rw [hkw1, jsonlKW, hslice1]
                rcases hb with hb | hb
                · obtain ⟨ks, hks⟩ := hwk hb
                  rw [hslice1] at hks
                  exact absurd hks (by simp)
                · exact absurd hkw1v hb
              | boolean b =>
                have hkw1v : kw1.1 = [] := by rw [hkw1, jsonlKW, hslice1]
                rcases hb with hb | hb
                · obtain ⟨ks, hks⟩ := hwk hb
                  rw [hslice1] at hks
                  exact absurd hks (by simp)
                · exact absurd hkw1v hb
              | num r =>
                have hkw1v : kw1.1 = [] := by rw [hkw1, jsonlKW, hslice1]
                rcases hb with hb | hb
                · obtain ⟨ks, hks⟩ := hwk hb
                  rw [hslice1] at hks
                  exact absurd hks (by simp)
                · exact absurd hkw1v hb
              | arr l =>
                have hkw1v : kw1.1 = [] := by rw [hkw1, jsonlKW, hslice1]
                rcases hb with hb | hb
                · obtain ⟨ks, hks⟩ := hwk hb
                  rw [hslice1] at hks
                  exact absurd hks (by simp)
                · exact absurd hkw1v hb
              | obj l =>
                have hkw1v : kw1.1 = [] := by rw [hkw1, jsonlKW, hslice1]
                rcases hb with hb | hb
                · obtain ⟨ks, hks⟩ := hwk hb
                  rw [hslice1] at hks
                  exact absurd hks (by simp)
                · exact absurd hkw1v hb
          rw [hfin_nil]
          rw [if_neg (by simp)]
      · have hs3 : jsonlKeySlice key_value o1 = none := by
          rw [hs2, ho1_kKey, if_neg hb]
        push_neg at hb
        rw [show jsonlKW key_value fin1 o1 = (([] : Str), false) from by
          rw [jsonlKW, hs3]]
        rw [hb.2]
    · push_neg at hkvk
      have hkvsa : key_value ≠ smart_attr := by tauto
      have hs2 : jsonlKeySlice key_value o1 = jsonlKeySlice key_value o := by
        simp only [jsonlKeySlice]
        rw [if_pos (by simpa using hkvk.1), if_pos (by simpa using hkvk.1)]
        exact ho1_at key_value hkvk.2 hkvsa
      have : jsonlKW key_value fin1 o1 = jsonlKW key_value fin1 o := by
        rw [jsonlKW, jsonlKW, hs2]
      rw [this, ← hkw1]
  -- filtered tail of the second pass
  have hfilter2 : o1.filter (jsonlFilterPred smart_attr) = F := by
    rw [ho1, List.filter_append, List.filter_append]
    have h1 : base1.filter (jsonlFilterPred smart_attr) = [] := by
      rw [hbase1]
      by_cases hc : write_key = true ∨ kw1.1 ≠ []
      · rw [if_pos hc]
        simp [jsonlFilterPred]
      · rw [if_neg hc]
        rfl
    have h2 : ([(smart_attr, Json.str fin1)] : Obj).filter (jsonlFilterPred smart_attr) =
        [] := by
      simp [jsonlFilterPred]
    have h3 : F.filter (jsonlFilterPred smart_attr) = F := by
      rw [hFdef]
      exact filter_idem _ _
    rw [h1, h2, h3]
    simp
  -- assemble
  rw [hfin2, hkwfst, hfilter2, ← hbase1, ← ho1]

theorem take_ne_nil_of_gt (l : Str) (N : Int) (h1 : N > 0) (h2 : (l.length : Int) > N) :
    l.take (usizeI N) ≠ [] := by
  have hN : usizeI N = N.toNat := usizeI_nonneg N (by omega)
  have h3 : 1 ≤ N.toNat := by omega
  have h4 : N.toNat ≤ l.length := by omega
  intro hh
  have hlen := congrArg List.length hh
  rw [List.length_take, hN, Nat.min_def] at hlen
  simp only [List.length_nil] at hlen
  split_ifs at hlen <;> omega

theorem not_mem_append_of (c : Char) (a b : Str) (ha : c ∉ a) (hb : c ∉ b) :
    c ∉ a ++ b := by
  simp [List.mem_append]
  tauto

theorem fix_vertex_stable (quo : Char) (N : Int) (tr : Translation) (coll f nf a : Str)
    (hcol1 : '/' ∉ coll) (hcol2 : ':' ∉ coll)
    (hbare : '/' ∉ unquote f quo → ':' ∉ unquote f quo)
    (hfix : fix_vertex quo N tr coll f = (nf, a)) :
    ∃ a2, fix_vertex quo N tr coll nf = (nf, a2) ∧ (a = [] → a2 = []) := by
  by_cases hslash : '/' ∈ unquote f quo
  · by_cases hcolon : ':' ∈ unquote f quo
    · -- already composite: untouched, same attribute expression on the second pass
      simp only [fix_vertex, if_pos hslash, if_pos hcolon] at hfix
      injection hfix with hnf ha
      have hu2 : unquote nf quo = unquote f quo := by
        rw [← hnf, unquote_quote_string]
      refine ⟨a, ?_, fun h => h⟩
      simp only [fix_vertex, hu2, if_pos hslash, if_pos hcolon]
      rw [hnf, ha]
    · -- slash but no colon
      have hafc : ':' ∉ afterSlash (unquote f quo) := by
        intro hh
        exact hcolon (by
          have hd := beforeSlash_append_afterSlash (unquote f quo) hslash
          rw [← hd]
          simp [List.mem_append, hh])
      by_cases htr : N > 0 ∧ ((afterSlash (unquote f quo)).length : Int) > N
      · -- direct truncation
        simp only [fix_vertex, if_pos hslash, if_neg hcolon, if_pos htr] at hfix
        injection hfix with hnf ha
        have hane : a ≠ [] := by
          rw [← ha]
          exact take_ne_nil_of_gt _ _ htr.1 htr.2
        have hu2 : unquote nf quo = beforeSlash (unquote f quo) ++
            '/' :: (a ++ ':' :: afterSlash (unquote f quo)) := by
          rw [← hnf, unquote_quote_string, ha]
        have hslash2 : '/' ∈ unquote nf quo := by
          rw [hu2]
          exact slash_mem_prepend _ _
        have hcolon2 : ':' ∈ unquote nf quo := by
          rw [hu2]
          simp [List.mem_append]
        have hfix2 : fix_vertex quo N tr coll nf =
            (nf, if ':' ∈ afterSlash (unquote nf quo) then
              beforeColon (afterSlash (unquote nf quo)) else []) := by
          simp only [fix_vertex, if_pos hslash2, if_pos hcolon2]
          rw [show quote_string (unquote nf quo) quo = nf from by
            rw [hu2, ← ha]
            exact hnf]
        exact ⟨_, hfix2, fun h => absurd h hane⟩
      · rcases hlk : lookupTab tr.key_tab (unquote f quo) with _ | idx
        · -- miss: value kept, second pass identical
          simp only [fix_vertex, if_pos hslash, if_neg hcolon, if_neg htr, hlk] at hfix
          injection hfix with hnf ha
          have hu2 : unquote nf quo = unquote f quo := by
            rw [← hnf, unquote_quote_string]
          refine ⟨[], ?_, fun _ => rfl⟩
          simp only [fix_vertex, hu2, if_pos hslash, if_neg hcolon, if_neg htr, hlk]
          rw [hnf]
        · -- hit: becomes composite
          simp only [fix_vertex, if_pos hslash, if_neg hcolon, if_neg htr, hlk] at hfix
          injection hfix with hnf ha
          have hbs : '/' ∉ beforeSlash (unquote f quo) := beforeSlash_not_mem _
          have hu2 : unquote nf quo = beforeSlash (unquote f quo) ++
              '/' :: (a ++ ':' :: afterSlash (unquote f quo)) := by
            rw [← hnf, unquote_quote_string, ha]
          have hslash2 : '/' ∈ unquote nf quo := by
            rw [hu2]
            exact slash_mem_prepend _ _
          have hcolon2 : ':' ∈ unquote nf quo := by
            rw [hu2]
            simp [List.mem_append]
          have hfix2 : fix_vertex quo N tr coll nf =
              (nf, if ':' ∈ afterSlash (unquote nf quo) then
                beforeColon (afterSlash (unquote nf quo)) else []) := by
            simp only [fix_vertex, if_pos hslash2, if_pos hcolon2]
            rw [show quote_string (unquote nf quo) quo = nf from by
              rw [hu2, ← ha]
              exact hnf]
          refine ⟨_, hfix2, fun hanil => ?_⟩
          have hafter : afterSlash (unquote nf quo) =
              a ++ ':' :: afterSlash (unquote f quo) := by
            rw [hu2]
            exact afterSlash_prepend _ _ hbs
          rw [hafter, if_pos (colon_mem_prepend a _), hanil]
          exact beforeColon_prepend _ _ (by simp)
  · -- bare key
    have hnc : ':' ∉ unquote f quo := hbare hslash
    by_cases htr : N > 0 ∧ ((unquote f quo).length : Int) > N
    · simp only [fix_vertex, if_neg hslash, if_pos htr] at hfix
      injection hfix with hnf ha
      have hane : a ≠ [] := by
        rw [← ha]
        exact take_ne_nil_of_gt _ _ htr.1 htr.2
      have hu2 : unquote nf quo = coll ++ '/' :: (a ++ ':' :: unquote f quo) := by
        rw [← hnf, unquote_quote_string, ha]
      have hslash2 : '/' ∈ unquote nf quo := by
        rw [hu2]
        exact slash_mem_prepend _ _
      have hcolon2 : ':' ∈ unquote nf quo := by
        rw [hu2]
        simp [List.mem_append]
      have hfix2 : fix_vertex quo N tr coll nf =
          (nf, if ':' ∈ afterSlash (unquote nf quo) then
            beforeColon (afterSlash (unquote nf quo)) else []) := by
        simp only [fix_vertex, if_pos hslash2, if_pos hcolon2]
        rw [show quote_string (unquote nf quo) quo = nf from by
          rw [hu2, ← ha]
          exact hnf]
      exact ⟨_, hfix2, fun h => absurd h hane⟩
    · rcases hlk : lookupTab tr.key_tab (coll ++ '/' :: unquote f quo) with _ | idx
      · -- miss: becomes coll/key, still unresolved on the second pass
        simp only [fix_vertex, if_neg hslash, if_neg htr, hlk] at hfix
        injection hfix with hnf ha
        have hu2 : unquote nf quo = coll ++ '/' :: unquote f quo := by
          rw [← hnf, unquote_quote_string]
        have hslash2 : '/' ∈ unquote nf quo := by
          rw [hu2]
          exact slash_mem_prepend _ _
        have hcolon2 : ':' ∉ unquote nf quo := by
          rw [hu2]
          exact not_mem_append_of ':' coll ('/' :: unquote f quo) hcol2 (by simp [hnc])
        have hafter : afterSlash (unquote nf quo) = unquote f quo := by
          rw [hu2]
          exact afterSlash_prepend _ _ hcol1
        refine ⟨[], ?_, fun _ => rfl⟩
        simp only [fix_vertex, if_pos hslash2, if_neg hcolon2, hafter, if_neg htr]
        rw [hu2, hlk]
        rw [show quote_string (coll ++ '/' :: unquote f quo) quo = nf from hnf]
      · -- hit: becomes composite
        simp only [fix_vertex, if_neg hslash, if_neg htr, hlk] at hfix
        injection hfix with hnf ha
        have hu2 : unquote nf quo = coll ++ '/' :: (a ++ ':' :: unquote f quo) := by
          rw [← hnf, unquote_quote_string, ha]
        have hslash2 : '/' ∈ unquote nf quo := by
          rw [hu2]
          exact slash_mem_prepend _ _
        have hcolon2 : ':' ∈ unquote nf quo := by
          rw [hu2]
          simp [List.mem_append]
        have hfix2 : fix_vertex quo N tr coll nf =
            (nf, if ':' ∈ afterSlash (unquote nf quo) then
              beforeColon (afterSlash (unquote nf quo)) else []) := by
          simp only [fix_vertex, if_pos hslash2, if_pos hcolon2]
          rw [show quote_string (unquote nf quo) quo = nf from by
            rw [hu2, ← ha]
            exact hnf]
        refine ⟨_, hfix2, fun hanil => ?_⟩
        have hafter : afterSlash (unquote nf quo) =
            a ++ ':' :: unquote f quo := by
          rw [hu2]
          exact afterSlash_prepend _ _ hcol1
        rw [hafter, if_pos (colon_mem_prepend a _), hanil]
        exact beforeColon_prepend _ _ (by simp)

/-- If both endpoint fields of a row are already fixed points of `fix_vertex`
and any key rewrite is blocked (the key is composite whenever both second-pass
attributes are non-empty), the edge-row transform returns the row unchanged. -/
theorem edge_csv_pass2 (quo : Char) (N : Int) (tr : Translation)
    (from_coll to_coll : Str) (fp tp : Nat) (kp : Int) (nh : Nat)
    (p1 : List Str) (nf nt fa2 ta2 : Str)
    (hfp1 : fp < p1.length) (htp1 : tp < p1.length) (hlen1 : nh ≤ p1.length)
    (hgetfp : p1.getD fp [] = nf) (hgettp : p1.getD tp [] = nt)
    (hf2 : fix_vertex quo N tr from_coll nf = (nf, fa2))
    (ht2 : fix_vertex quo N tr to_coll nt = (nt, ta2))
    (hkey : kp ≥ 0 → fa2 ≠ [] → ta2 ≠ [] →
      usizeI kp < p1.length ∧ ':' ∈ unquote (p1.getD (usizeI kp) []) quo) :
    transform_edges_csv_row quo N tr from_coll to_coll fp tp kp nh p1 = some p1 := by
  have hset1 : p1.set fp nf = p1 := by
    rw [← hgetfp]
    exact listSet_getD_self p1 fp [] hfp1
  have hset2 : p1.set tp nt = p1 := by
    rw [← hgettp]
    exact listSet_getD_self p1 tp [] htp1
  simp only [transform_edges_csv_row, padTo_of_le p1 nh hlen1, hgetfp, hf2, hset1,
    hgettp, ht2, hset2, if_pos hfp1, if_pos htp1]
  by_cases hc : kp ≥ 0 ∧ fa2 ≠ [] ∧ ta2 ≠ []
  · obtain ⟨hlt, hcolon⟩ := hkey hc.1 hc.2.1 hc.2.2
    rw [if_pos hc, if_pos hlt, if_pos hcolon]
  · rw [if_neg hc]

/-- Record-level idempotence of the tabular edge transform: under clean
default collections, colon-free bare endpoints, and distinct in-range
column positions, a second pass over a transformed row is the identity. -/
theorem c5_edge_csv_idem (quo : Char) (N : Int) (tr : Translation)
    (from_coll to_coll : Str) (fp tp : Nat) (kp : Int) (nh : Nat)
    (parts0 p1 : List Str)
    (hfp : fp < nh) (htp : tp < nh) (hfptp : fp ≠ tp)
    (hkp : kp ≥ 0 → usizeI kp < nh ∧ usizeI kp ≠ fp ∧ usizeI kp ≠ tp)
    (hfc1 : '/' ∉ from_coll) (hfc2 : ':' ∉ from_coll)
    (htc1 : '/' ∉ to_coll) (htc2 : ':' ∉ to_coll)
    (hbaref : '/' ∉ unquote ((padTo parts0 nh).getD fp []) quo →
      ':' ∉ unquote ((padTo parts0 nh).getD fp []) quo)
    (hbaret : '/' ∉ unquote ((padTo parts0 nh).getD tp []) quo →
      ':' ∉ unquote ((padTo parts0 nh).getD tp []) quo)
    (hrun : transform_edges_csv_row quo N tr from_coll to_coll fp tp kp nh parts0
      = some p1) :
    transform_edges_csv_row quo N tr from_coll to_coll fp tp kp nh p1 = some p1 := by
  obtain ⟨nf, fa, hf1⟩ : ∃ nf fa,
      fix_vertex quo N tr from_coll ((padTo parts0 nh).getD fp []) = (nf, fa) :=
    ⟨_, _, rfl⟩
  obtain ⟨nt, ta, ht1⟩ : ∃ nt ta,
      fix_vertex quo N tr to_coll ((padTo parts0 nh).getD tp []) = (nt, ta) :=
    ⟨_, _, rfl⟩
  obtain ⟨fa2, hf2, hfa2⟩ :=
    fix_vertex_stable quo N tr from_coll _ nf fa hfc1 hfc2 hbaref hf1
  obtain ⟨ta2, ht2, hta2⟩ :=
    fix_vertex_stable quo N tr to_coll _ nt ta htc1 htc2 hbaret ht1
  have hplen : nh ≤ (padTo parts0 nh).length := by
    rw [length_padTo]
    omega
  have hfplt : fp < (padTo parts0 nh).length := lt_of_lt_of_le hfp hplen
  have htplt : tp < (padTo parts0 nh).length := lt_of_lt_of_le htp hplen
  simp only [transform_edges_csv_row, if_pos hfplt, hf1,
    listGetD_set_ne (padTo parts0 nh) fp tp nf [] hfptp, ht1,
    List.length_set, if_pos htplt] at hrun
  by_cases hcond : kp ≥ 0 ∧ fa ≠ [] ∧ ta ≠ []
  · obtain ⟨hkplt0, hkpf, hkpt⟩ := hkp hcond.1
    have hkplt : usizeI kp < (padTo parts0 nh).length := lt_of_lt_of_le hkplt0 hplen
    rw [if_pos hcond, if_pos hkplt] at hrun
    have hqget : (((padTo parts0 nh).set fp nf).set tp nt).getD (usizeI kp) [] =
        (padTo parts0 nh).getD (usizeI kp) [] := by
      rw [listGetD_set_ne _ tp (usizeI kp) nt [] (Ne.symm hkpt),
        listGetD_set_ne _ fp (usizeI kp) nf [] (Ne.symm hkpf)]
    rw [hqget] at hrun
    by_cases hcu : ':' ∈ unquote ((padTo parts0 nh).getD (usizeI kp) []) quo
    · rw [if_pos hcu] at hrun
      have hp1 : p1 = ((padTo parts0 nh).set fp nf).set tp nt :=
        (Option.some_inj.mp hrun).symm
      subst hp1
      refine edge_csv_pass2 quo N tr from_coll to_coll fp tp kp nh _ nf nt fa2 ta2
        (by simpa using hfplt) (by simpa using htplt) (by simpa using hplen)
        ?_ ?_ hf2 ht2 ?_
      · rw [listGetD_set_ne _ tp fp nt [] (Ne.symm hfptp),
          listGetD_set_self _ fp nf [] hfplt]
      · exact listGetD_set_self _ tp nt [] (by simpa using htplt)
      · intro _ _ _
        refine ⟨by simpa using hkplt, ?_⟩
        rw [hqget]
        exact hcu
    · rw [if_neg hcu] at hrun
      have hp1 : p1 = (((padTo parts0 nh).set fp nf).set tp nt).set (usizeI kp)
          (quote_string (fa ++ ':' ::
            (unquote ((padTo parts0 nh).getD (usizeI kp) []) quo ++ ':' :: ta)) quo) :=
        (Option.some_inj.mp hrun).symm
      subst hp1
      refine edge_csv_pass2 quo N tr from_coll to_coll fp tp kp nh _ nf nt fa2 ta2
        (by simpa using hfplt) (by simpa using htplt) (by simpa using hplen)
        ?_ ?_ hf2 ht2 ?_
      · rw [listGetD_set_ne _ (usizeI kp) fp _ [] hkpf,
          listGetD_set_ne _ tp fp nt [] (Ne.symm hfptp),
          listGetD_set_self _ fp nf [] hfplt]
      · rw [listGetD_set_ne _ (usizeI kp) tp _ [] hkpt,
          listGetD_set_self _ tp nt [] (by simpa using htplt)]
      · intro _ _ _
        refine ⟨by simpa using hkplt, ?_⟩
        rw [listGetD_set_self _ (usizeI kp) _ [] (by simpa using hkplt),
          unquote_quote_string]
        exact colon_mem_prepend fa _
  · rw [if_neg hcond] at hrun
    have hp1 : p1 = ((padTo parts0 nh).set fp nf).set tp nt :=
      (Option.some_inj.mp hrun).symm
    subst hp1
    refine edge_csv_pass2 quo N tr from_coll to_coll fp tp kp nh _ nf nt fa2 ta2
      (by simpa using hfplt) (by simpa using htplt) (by simpa using hplen)
      ?_ ?_ hf2 ht2 ?_
    · rw [listGetD_set_ne _ tp fp nt [] (Ne.symm hfptp),
        listGetD_set_self _ fp nf [] hfplt]
    · exact listGetD_set_self _ tp nt [] (by simpa using htplt)
    · intro h1 h2 h3
      exact absurd ⟨h1, fun hfa => h2 (hfa2 hfa), fun hta => h3 (hta2 hta)⟩ hcond

/-- A value written by `fix_json_vertex` is a fixed point: running the
resolver again on an object carrying the written value (or the untouched
member) finds the same value and derives no attribute. -/
theorem fix_json_vertex_stable (o o1 : Obj) (field coll : Str) (N : Int)
    (tr : Translation) (found : Bool) (nv att : Option Str)
    (hcol : '/' ∉ coll)
    (hfix : fix_json_vertex o field coll N tr = (found, nv, att))
    (hsome : ∀ v, nv = some v → mapGet o1 field = some (Json.str v))
    (hnone : nv = none → mapGet o1 field = mapGet o field) :
    fix_json_vertex o1 field coll N tr = (found, nv, none) := by
  rcases ho : mapGet o field with _ | v
  · simp only [fix_json_vertex, ho] at hfix
    injection hfix with h1 h23
    injection h23 with h2 h3
    subst h1
    subst h2
    simp only [fix_json_vertex, hnone rfl, ho]
  · rcases v with s | _ | b | ns | l | m
    · by_cases hs : '/' ∈ s
      · by_cases hc : ':' ∈ s
        · simp only [fix_json_vertex, ho, if_pos hs, if_pos hc] at hfix
          injection hfix with h1 h23
          injection h23 with h2 h3
          subst h1
          subst h2
          simp only [fix_json_vertex, hsome s rfl, if_pos hs, if_pos hc]
        · by_cases ht : N > 0 ∧ ((afterSlash s).length : Int) > N
          · simp only [fix_json_vertex, ho, if_pos hs, if_neg hc, if_pos ht] at hfix
            injection hfix with h1 h23
            injection h23 with h2 h3
            subst h1
            subst h2
            have hv := hsome _ rfl
            have hs2 : '/' ∈ beforeSlash s ++ '/' ::
                ((afterSlash s).take (usizeI N) ++ ':' :: afterSlash s) :=
              slash_mem_prepend _ _
            have hc2 : ':' ∈ beforeSlash s ++ '/' ::
                ((afterSlash s).take (usizeI N) ++ ':' :: afterSlash s) := by
              simp
            simp only [fix_json_vertex, hv, if_pos hs2, if_pos hc2]
          · rcases hlk : lookupTab tr.key_tab s with _ | idx
            · simp only [fix_json_vertex, ho, if_pos hs, if_neg hc, if_neg ht, hlk]
                at hfix
              injection hfix with h1 h23
              injection h23 with h2 h3
              subst h1
              subst h2
              have hv := hsome s rfl
              simp only [fix_json_vertex, hv, if_pos hs, if_neg hc, if_neg ht, hlk]
            · simp only [fix_json_vertex, ho, if_pos hs, if_neg hc, if_neg ht, hlk]
                at hfix
              injection hfix with h1 h23
              injection h23 with h2 h3
              subst h1
              subst h2
              have hv := hsome _ rfl
              have hs2 : '/' ∈ beforeSlash s ++ '/' ::
                  (tr.smart_attributes.getD idx [] ++ ':' :: afterSlash s) :=
                slash_mem_prepend _ _
              have hc2 : ':' ∈ beforeSlash s ++ '/' ::
                  (tr.smart_attributes.getD idx [] ++ ':' :: afterSlash s) := by
                simp
              simp only [fix_json_vertex, hv, if_pos hs2, if_pos hc2]
      · by_cases ht : N > 0 ∧ ((s.length : Int) > N)
        · simp only [fix_json_vertex, ho, if_neg hs, if_pos ht] at hfix
          injection hfix with h1 h23
          injection h23 with h2 h3
          subst h1
          subst h2
          have hv := hsome _ rfl
          have hs2 : '/' ∈ coll ++ '/' :: (s.take (usizeI N) ++ ':' :: s) :=
            slash_mem_prepend _ _
          have hc2 : ':' ∈ coll ++ '/' :: (s.take (usizeI N) ++ ':' :: s) := by
            simp
          simp only [fix_json_vertex, hv, if_pos hs2, if_pos hc2]
        · rcases hlk : lookupTab tr.key_tab (coll ++ '/' :: s) with _ | idx
          · simp only [fix_json_vertex, ho, if_neg hs, if_neg ht, hlk] at hfix
            injection hfix with h1 h23
            injection h23 with h2 h3
            subst h1
            subst h2
            have hv := hsome _ rfl
            have hs2 : '/' ∈ coll ++ '/' :: s := slash_mem_prepend _ _
            by_cases hc2 : ':' ∈ coll ++ '/' :: s
            · simp only [fix_json_vertex, hv, if_pos hs2, if_pos hc2]
            · have hafter : afterSlash (coll ++ '/' :: s) = s :=
                afterSlash_prepend coll s hcol
              simp only [fix_json_vertex, hv, if_pos hs2, if_neg hc2, hafter,
                if_neg ht, hlk]
          · simp only [fix_json_vertex, ho, if_neg hs, if_neg ht, hlk] at hfix
            injection hfix with h1 h23
            injection h23 with h2 h3
            subst h1
            subst h2
            have hv := hsome _ rfl
            have hs2 : '/' ∈ coll ++ '/' ::
                (tr.smart_attributes.getD idx [] ++ ':' :: s) :=
              slash_mem_prepend _ _
            have hc2 : ':' ∈ coll ++ '/' ::
                (tr.smart_attributes.getD idx [] ++ ':' :: s) := by
              simp
            simp only [fix_json_vertex, hv, if_pos hs2, if_pos hc2]
    · simp only [fix_json_vertex, ho] at hfix
      injection hfix with h1 h23
      injection h23 with h2 h3
      subst h1
      subst h2
      simp only [fix_json_vertex, hnone rfl, ho]
    · simp only [fix_json_vertex, ho] at hfix
      injection hfix with h1 h23
      injection h23 with h2 h3
      subst h1
      subst h2
      simp only [fix_json_vertex, hnone rfl, ho]
    · simp only [fix_json_vertex, ho] at hfix
      injection hfix with h1 h23
      injection h23 with h2 h3
      subst h1
      subst h2
      simp only [fix_json_vertex, hnone rfl, ho]
    · simp only [fix_json_vertex, ho] at hfix
      injection hfix with h1 h23
      injection h23 with h2 h3
      subst h1
      subst h2
      simp only [fix_json_vertex, hnone rfl, ho]
    · simp only [fix_json_vertex, ho] at hfix
      injection hfix with h1 h23
      injection h23 with h2 h3
      subst h1
      subst h2
      simp only [fix_json_vertex, hnone rfl, ho]

/-- Record-level idempotence of the object edge transform: when the default
collection names contain no slash, a second pass over a transformed record
is the identity. -/
theorem c5_edge_jsonl_idem (from_coll to_coll : Str) (N : Int) (tr : Translation)
    (o : Obj) (hfc : '/' ∉ from_coll) (htc : '/' ∉ to_coll) :
    transform_edges_jsonl_row from_coll to_coll N tr
        (transform_edges_jsonl_row from_coll to_coll N tr o) =
      transform_edges_jsonl_row from_coll to_coll N tr o := by
  rcases hrf : fix_json_vertex o kFrom from_coll N tr with ⟨ff, fv, fa⟩
  rcases hrt : fix_json_vertex o kTo to_coll N tr with ⟨tf, tv, ta⟩
  set o1 := transform_edges_jsonl_row from_coll to_coll N tr o with ho1def
  have ho1 : o1 =
      edgeKeyEntry (edgeNewKey (ff, fv, fa) (tf, tv, ta) (mapGet o kKey))
        (mapGet o kKey) ++
      (edgeEndpointEntry kFrom fv (mapGet o kFrom) ++
      (edgeEndpointEntry kTo tv (mapGet o kTo) ++
      o.filter (fun kv => decide (kv.1 ≠ kKey ∧ kv.1 ≠ kFrom ∧ kv.1 ≠ kTo)))) := by
    rw [ho1def]
    simp only [transform_edges_jsonl_row, hrf, hrt, List.append_assoc]
  have hsomeF : ∀ v, fv = some v → mapGet o1 kFrom = some (Json.str v) := by
    intro v hv
    subst hv
    rw [ho1, mapGet_append_of_none _ _ _ (mapGet_edgeKeyEntry_ne _ _ _ (by decide)),
      mapGet_append_of_some _ _ _ _ (mapGet_edgeEndpointEntry_some kFrom v _)]
  have hnoneF : fv = none → mapGet o1 kFrom = mapGet o kFrom := by
    intro hv
    subst hv
    rw [ho1, mapGet_append_of_none _ _ _ (mapGet_edgeKeyEntry_ne _ _ _ (by decide))]
    rcases hfo : mapGet o kFrom with _ | w
    · rw [mapGet_append_of_none _ _ _ (mapGet_edgeEndpointEntry_none kFrom none),
        mapGet_append_of_none _ _ _
          (mapGet_edgeEndpointEntry_ne kTo tv (mapGet o kTo) kFrom (by decide))]
      exact mapGet_filter_of_false _ _ _ (fun w => by simp)
    · exact mapGet_append_of_some _ _ _ _ (mapGet_edgeEndpointEntry_none kFrom (some w))
  have hsomeT : ∀ v, tv = some v → mapGet o1 kTo = some (Json.str v) := by
    intro v hv
    subst hv
    rw [ho1, mapGet_append_of_none _ _ _ (mapGet_edgeKeyEntry_ne _ _ _ (by decide)),
      mapGet_append_of_none _ _ _
        (mapGet_edgeEndpointEntry_ne kFrom fv (mapGet o kFrom) kTo (by decide)),
      mapGet_append_of_some _ _ _ _ (mapGet_edgeEndpointEntry_some kTo v _)]
  have hnoneT : tv = none → mapGet o1 kTo = mapGet o kTo := by
    intro hv
    subst hv
    rw [ho1, mapGet_append_of_none _ _ _ (mapGet_edgeKeyEntry_ne _ _ _ (by decide)),
      mapGet_append_of_none _ _ _
        (mapGet_edgeEndpointEntry_ne kFrom fv (mapGet o kFrom) kTo (by decide))]
    rcases hto : mapGet o kTo with _ | w
    · rw [mapGet_append_of_none _ _ _ (mapGet_edgeEndpointEntry_none kTo none)]
      exact mapGet_filter_of_false _ _ _ (fun w => by simp)
    · exact mapGet_append_of_some _ _ _ _ (mapGet_edgeEndpointEntry_none kTo (some w))
  have hf2 : fix_json_vertex o1 kFrom from_coll N tr = (ff, fv, none) :=
    fix_json_vertex_stable o o1 kFrom from_coll N tr ff fv fa hfc hrf hsomeF hnoneF
  have ht2 : fix_json_vertex o1 kTo to_coll N tr = (tf, tv, none) :=
    fix_json_vertex_stable o o1 kTo to_coll N tr tf tv ta htc hrt hsomeT hnoneT
  have hK2 : edgeKeyEntry none (mapGet o1 kKey) =
      edgeKeyEntry (edgeNewKey (ff, fv, fa) (tf, tv, ta) (mapGet o kKey))
        (mapGet o kKey) := by
    rcases hnk : edgeNewKey (ff, fv, fa) (tf, tv, ta) (mapGet o kKey) with _ | k0
    · rw [ho1, hnk]
      rcases hk : mapGet o kKey with _ | w
      · rw [show edgeKeyEntry none none = ([] : Obj) from rfl, List.nil_append,
          mapGet_append_of_none _ _ _
            (mapGet_edgeEndpointEntry_ne kFrom fv (mapGet o kFrom) kKey (by decide)),
          mapGet_append_of_none _ _ _
            (mapGet_edgeEndpointEntry_ne kTo tv (mapGet o kTo) kKey (by decide)),
          mapGet_filter_of_false _ _ _ (fun w => by simp)]
        rfl
      · rw [show edgeKeyEntry none (some w) = [(kKey, w)] from rfl,
          mapGet_append_of_some _ _ _ _ (mapGet_cons_eq _ _ _)]
        rfl
    · rw [ho1, hnk,
        show edgeKeyEntry (some k0) (mapGet o kKey) = [(kKey, Json.str k0)] from rfl,
        mapGet_append_of_some _ _ _ _ (mapGet_cons_eq _ _ _)]
      rfl
  have hF2 : edgeEndpointEntry kFrom fv (mapGet o1 kFrom) =
      edgeEndpointEntry kFrom fv (mapGet o kFrom) := by
    rcases hfv : fv with _ | s
    · rw [hnoneF hfv]
    · rfl
  have hT2 : edgeEndpointEntry kTo tv (mapGet o1 kTo) =
      edgeEndpointEntry kTo tv (mapGet o kTo) := by
    rcases htv : tv with _ | s
    · rw [hnoneT htv]
    · rfl
  have hR2 : o1.filter (fun kv => decide (kv.1 ≠ kKey ∧ kv.1 ≠ kFrom ∧ kv.1 ≠ kTo)) =
      o.filter (fun kv => decide (kv.1 ≠ kKey ∧ kv.1 ≠ kFrom ∧ kv.1 ≠ kTo)) := by
    rw [ho1, List.filter_append, List.filter_append, List.filter_append,
      filter_edgeKeyEntry_nil _ _ _ (fun v => by simp),
      filter_edgeEndpointEntry_nil _ _ _ _ (fun v => by simp),
      filter_edgeEndpointEntry_nil _ _ _ _ (fun v => by simp),
      filter_idem]
    simp
  simp only [transform_edges_jsonl_row, hf2, ht2]
  rw [edgeNewKey_attr_none_left, hK2, hF2, hT2, hR2, ho1]
  simp [List.append_assoc]

/-- Claim C5 (amended): smartification is idempotent per record, not
byte-for-byte. (1) Tabular vertex: with distinct in-range attribute, key,
value-source and key-value columns and a colon-free derived attribute, a
second pass over a transformed row returns the row unchanged (only the
diagnostic flag may differ). (2) Object vertex: when the key source, if
written, is a string, the attribute field is not `_key`, the value-source
field is not `_key` and the key-value field is not the attribute field, a
second pass returns the same object. (3) Tabular edge: with slash- and
colon-free default collections, colon-free bare endpoint keys and distinct
in-range `_from`/`_to`/`_key` positions, a second pass returns the row
unchanged. (4) Object edge: with slash-free default collections a second
pass is the identity. -/
theorem c5_idempotence_amended :
    (∀ (quo : Char) (ncols : Nat) (sap svp N kp kvp : Int)
        (parts0 p1 : List Str) (b1 : Bool),
      0 ≤ sap → 0 ≤ kp → sap.toNat < ncols → kp.toNat < ncols →
      sap.toNat ≠ kp.toNat →
      (svp ≥ 0 → svp.toNat < ncols ∧ svp.toNat ≠ kp.toNat) →
      (kvp ≥ 0 → kvp.toNat < ncols ∧ kvp.toNat ≠ kp.toNat ∧ kvp.toNat ≠ sap.toNat) →
      (∀ pa att, csvAttStep quo sap svp N (padTo parts0 ncols) = some (pa, att) →
        ':' ∉ att) →
      transform_vertex_csv quo ncols sap svp N kp kvp parts0 = some (p1, b1) →
      ∃ b2, transform_vertex_csv quo ncols sap svp N kp kvp p1 = some (p1, b2)) ∧
    (∀ (smart_attr smart_value smart_default key_value : Str)
        (N : Int) (write_key : Bool) (o : Obj),
      smart_attr ≠ kKey →
      (smart_value = [] ∨ smart_value ≠ kKey) →
      (key_value = [] ∨ key_value ≠ smart_attr) →
      (write_key = true → ∃ ks, jsonlKeySlice key_value o = some (.str ks)) →
      (transform_vertex_jsonl smart_attr smart_value smart_default key_value N
          write_key
        ((transform_vertex_jsonl smart_attr smart_value smart_default key_value N
          write_key o).1)).1 =
      (transform_vertex_jsonl smart_attr smart_value smart_default key_value N
        write_key o).1) ∧
    (∀ (quo : Char) (N : Int) (tr : Translation) (from_coll to_coll : Str)
        (fp tp : Nat) (kp : Int) (nh : Nat) (parts0 p1 : List Str),
      fp < nh → tp < nh → fp ≠ tp →
      (kp ≥ 0 → usizeI kp < nh ∧ usizeI kp ≠ fp ∧ usizeI kp ≠ tp) →
      '/' ∉ from_coll → ':' ∉ from_coll → '/' ∉ to_coll → ':' ∉ to_coll →
      ('/' ∉ unquote ((padTo parts0 nh).getD fp []) quo →
        ':' ∉ unquote ((padTo parts0 nh).getD fp []) quo) →
      ('/' ∉ unquote ((padTo parts0 nh).getD tp []) quo →
        ':' ∉ unquote ((padTo parts0 nh).getD tp []) quo) →
      transform_edges_csv_row quo N tr from_coll to_coll fp tp kp nh parts0
        = some p1 →
      transform_edges_csv_row quo N tr from_coll to_coll fp tp kp nh p1 = some p1) ∧
    (∀ (from_coll to_coll : Str) (N : Int) (tr : Translation) (o : Obj),
      '/' ∉ from_coll → '/' ∉ to_coll →
      transform_edges_jsonl_row from_coll to_coll N tr
          (transform_edges_jsonl_row from_coll to_coll N tr o) =
        transform_edges_jsonl_row from_coll to_coll N tr o) := by
  refine ⟨?_, ?_, ?_, ?_⟩
  · intro quo ncols sap svp N kp kvp parts0 p1 b1 h1 h2 h3 h4 h5 h6 h7 h8 h9
    exact c5_csv_vertex_idem quo ncols sap svp N kp kvp parts0 p1 b1
      h1 h2 h3 h4 h5 h6 h7 h8 h9
  · intro sa sv sd kv N wk o h1 h2 h3 h4
    exact c5_jsonl_vertex_idem sa sv sd kv N wk o h1 h2 h3 h4
  · intro quo N tr fc tc fp tp kp nh parts0 p1 h1 h2 h3 h4 h5 h6 h7 h8 h9 h10 h11
    exact c5_edge_csv_idem quo N tr fc tc fp tp kp nh parts0 p1
      h1 h2 h3 h4 h5 h6 h7 h8 h9 h10 h11
  · intro fc tc N tr o h1 h2
    exact c5_edge_jsonl_idem fc tc N tr o h1 h2

/-- Witness for amended C5: concrete idempotent runs in all four encodings. -/
theorem c5_witness :
    (∃ b2, transform_vertex_csv '"' 2 0 (-1) (-1) 1 (-1)
      ["ab".data, "ab:k".data] = some ((["ab".data, "ab:k".data]), b2)) ∧
    (transform_vertex_jsonl "sa".data [] "d".data [] (-1) false
        ((transform_vertex_jsonl "sa".data [] "d".data [] (-1) false []).1)).1 =
      (transform_vertex_jsonl "sa".data [] "d".data [] (-1) false []).1 ∧
    transform_edges_csv_row '"' (-1) do_edges_translation "persons".data
        "persons".data 0 1 (-1) 2 ["persons/p1".data, "persons/p2".data] =
      some ["persons/p1".data, "persons/p2".data] ∧
    transform_edges_jsonl_row "persons".data "persons".data (-1)
        do_edges_translation
        (transform_edges_jsonl_row "persons".data "persons".data (-1)
          do_edges_translation []) =
      transform_edges_jsonl_row "persons".data "persons".data (-1)
        do_edges_translation [] := by
  refine ⟨?_, ?_, ?_, ?_⟩
  · exact c5_idempotence_amended.1 '"' 2 0 (-1) (-1) 1 (-1) ["ab".data, "k".data]
      ["ab".data, "ab:k".data] false (by decide) (by decide) (by decide) (by decide)
      (by decide) (by decide) (by decide)
      (by
        intro pa att h
        have h2 : csvAttStep '"' 0 (-1) (-1) (padTo ["ab".data, "k".data] 2) =
            some ((["ab".data, "k".data]), "ab".data) := by decide
        rw [h2] at h
        have h3 := Option.some_inj.mp h
        injection h3 with hpa hatt
        rw [← hatt]
        decide)
      (by decide)
  · exact c5_idempotence_amended.2.1 "sa".data [] "d".data [] (-1) false []
      (by decide) (Or.inl rfl) (Or.inl rfl) (fun h => absurd h (by decide))
  · exact c5_idempotence_amended.2.2.1 '"' (-1) do_edges_translation "persons".data
      "persons".data 0 1 (-1) 2 ["persons/p1".data, "persons/p2".data]
      ["persons/p1".data, "persons/p2".data] (by decide) (by decide) (by decide)
      (by decide) (by decide) (by decide) (by decide) (by decide) (by decide)
      (by decide) (by decide)
  · exact c5_idempotence_amended.2.2.2 "persons".data "persons".data (-1)
      do_edges_translation [] (by decide) (by decide)
